import Mathlib

/-!
RelaxNative example kernels and native test helpers

A shallow embedding of the C fixtures of the repository:

* `examples/crc32.c`      : `crc32_update`, `crc32_u8`
* `examples/buffer.c`     : `fill_u8`, `sum_u8`
* `examples/histogram.c`  : `histogram_u8`
* `examples/xor.c`        : `xor_u8`
* `examples/loop.c`       : `loop_sum`
* `examples/matmul.c`     : `matmul_f32`
* `examples/registry/fast-matrix/matrix.c` : `mul2`
* `native/relaxnative_test.h`, `native/examples/add_test.c` : `RN_ASSERT`,
  `RN_ASSERT_MSG`, `add`, `test_add_*`

Byte buffers live in one byte-addressed memory (`Mem`), a pointer is an index
into it, and an access outside the memory is undefined behaviour, modelled by
`none`.  Machine integers are `Nat`/`Int` with explicit wrap-around.  Buffers of
`float` and `double` live in a memory of numbers whose arithmetic is a parameter.
-/

namespace RelaxNative

/-! ## Memory model -/

/-- Byte-addressed memory: cell `p` holds the byte stored at address `p`. -/
abbrev Mem := List Nat

/-- Every cell holds a value of type `uint8_t` / `unsigned char`. -/
def Bytes (mem : Mem) : Prop := ∀ x ∈ mem, x < 256

instance (mem : Mem) : Decidable (Bytes mem) := by
  unfold Bytes; infer_instance

/-- Read of `p[0]`; `none` when `p` is outside the memory. -/
def load (mem : Mem) (p : Nat) : Option Nat := mem[p]?

/-- Write of `p[0] = v`; `none` when `p` is outside the memory. -/
def store (mem : Mem) (p v : Nat) : Option Mem :=
  if p < mem.length then some (mem.set p v) else none

/-- Largest value of type `int` (32 bits). -/
def INT_MAX : Int := 2147483647

/-- Number of values of type `uint32_t`. -/
def U32 : Nat := 4294967296

/-! ## examples/crc32.c -/

/-- The body of `for (int k = 0; k < 8; k++)` in `crc32_update`, run `cnt` times:
`mask = (uint32_t)-(int)(crc & 1u); crc = (crc >> 1) ^ (0xEDB88320u & mask);`. -/
def crc32_update_loop : Nat → Nat → Nat
  | 0, crc => crc
  | cnt + 1, crc =>
    let mask := (U32 - (crc &&& 1)) % U32
    crc32_update_loop cnt ((crc >>> 1) ^^^ (0xEDB88320 &&& mask))

/-- Embedding of `uint32_t crc32_update(uint32_t crc, uint8_t data)`. -/
def crc32_update (crc data : Nat) : Nat :=
  crc32_update_loop 8 (crc ^^^ data)

/-- The loop `for (int i = 0; i < n; i++) crc = crc32_update(crc, data[i]);`
with `cnt` iterations left and loop counter `i`. -/
def crc32_u8_loop (mem : Mem) (data : Nat) : Nat → Nat → Nat → Option Nat
  | 0, _, crc => some crc
  | cnt + 1, i, crc =>
    match load mem (data + i) with
    | none => none
    | some d => crc32_u8_loop mem data cnt (i + 1) (crc32_update crc d)

/-- Embedding of `uint32_t crc32_u8(const uint8_t* data, int n)`: the loop runs
`n` times when `n > 0` and not at all otherwise; `~crc` is taken on 32 bits. -/
def crc32_u8 (mem : Mem) (data : Nat) (n : Int) : Option Nat :=
  match crc32_u8_loop mem data n.toNat 0 0xFFFFFFFF with
  | none => none
  | some crc => some (crc ^^^ 0xFFFFFFFF)

/-! ## examples/buffer.c

The buffers of `buffer.c` have element type `char`, whose signedness is chosen by
the platform; `signedChar` says whether `char` is a signed type. -/

/-- Value of a `char` object whose byte is `b`: on a platform with signed `char`
the bytes 128..255 are the negative values -128..-1. -/
def charOfByte (signedChar : Bool) (b : Nat) : Int :=
  if signedChar && decide (128 ≤ b) then (b : Int) - 256 else (b : Int)

/-- The byte that represents the `char` value `c` (two's complement). -/
def byteOfChar (c : Int) : Nat := (c % 256).toNat

/-- The conversion `(unsigned char)x` of an integer value: reduction modulo 256. -/
def toUChar (x : Int) : Int := x % 256

/-- The conversion of an integer value to `char` in the assignment `out[i] = x`. -/
def toChar (signedChar : Bool) (x : Int) : Int :=
  charOfByte signedChar (x % 256).toNat

/-- The loop `for (int i = 0; i < n; i++) out[i] = (unsigned char)value;`
with `cnt` iterations left and loop counter `i`. -/
def fill_u8_loop (signedChar : Bool) (out : Nat) (value : Int) : Nat → Nat → Mem → Option Mem
  | 0, _, mem => some mem
  | cnt + 1, i, mem =>
    match store mem (out + i) (byteOfChar (toChar signedChar (toUChar value))) with
    | none => none
    | some mem1 => fill_u8_loop signedChar out value cnt (i + 1) mem1

/-- Embedding of `void fill_u8(char* out, int n, int value)`; the result is the
memory after the call. -/
def fill_u8 (signedChar : Bool) (mem : Mem) (out : Nat) (n value : Int) : Option Mem :=
  fill_u8_loop signedChar out value n.toNat 0 mem

/-- The loop `for (int i = 0; i < n; i++) s += (unsigned char)buf[i];` with `cnt`
iterations left, loop counter `i` and accumulator `s`; an `int` addition that
leaves the range of `int` is undefined behaviour (`none`). -/
def sum_u8_loop (signedChar : Bool) (mem : Mem) (buf : Nat) : Nat → Nat → Int → Option Int
  | 0, _, s => some s
  | cnt + 1, i, s =>
    match load mem (buf + i) with
    | none => none
    | some b =>
      let s1 := s + toUChar (charOfByte signedChar b)
      if s1 ≤ INT_MAX then sum_u8_loop signedChar mem buf cnt (i + 1) s1 else none

/-- Embedding of `int sum_u8(char* buf, int n)`. -/
def sum_u8 (signedChar : Bool) (mem : Mem) (buf : Nat) (n : Int) : Option Int :=
  sum_u8_loop signedChar mem buf n.toNat 0 0

/-! ## examples/histogram.c

`data` and `out256` are pointers into the same byte memory, so `data` may point
into the array `out256`.  A `uint32_t` occupies four bytes; `bigEndian` says
whether the platform stores the most significant byte first.  `out256[k]` is the
`uint32_t` at byte address `out256 + 4 * k`. -/

/-- Read of a `uint32_t` at byte address `p`; `none` when one of its four bytes
is outside the memory. -/
def loadU32 (bigEndian : Bool) (mem : Mem) (p : Nat) : Option Nat :=
  match load mem p, load mem (p + 1), load mem (p + 2), load mem (p + 3) with
  | some x0, some x1, some x2, some x3 =>
    some (if bigEndian then x3 + 256 * x2 + 65536 * x1 + 16777216 * x0
      else x0 + 256 * x1 + 65536 * x2 + 16777216 * x3)
  | _, _, _, _ => none

/-- Write of the `uint32_t` value `w` at byte address `p`; `none` when one of its
four bytes is outside the memory. -/
def storeU32 (bigEndian : Bool) (mem : Mem) (p w : Nat) : Option Mem :=
  if p + 4 ≤ mem.length then
    some (if bigEndian then
      (((mem.set p (w / 16777216 % 256)).set (p + 1) (w / 65536 % 256)).set (p + 2)
        (w / 256 % 256)).set (p + 3) (w % 256)
    else
      (((mem.set p (w % 256)).set (p + 1) (w / 256 % 256)).set (p + 2)
        (w / 65536 % 256)).set (p + 3) (w / 16777216 % 256))
  else none

/-- The loop `for (int i = 0; i < 256; i++) out256[i] = 0;` with `cnt` iterations
left and loop counter `i`. -/
def histogram_u8_zero (bigEndian : Bool) (out256 : Nat) : Nat → Nat → Mem → Option Mem
  | 0, _, mem => some mem
  | cnt + 1, i, mem =>
    match storeU32 bigEndian mem (out256 + 4 * i) 0 with
    | none => none
    | some mem1 => histogram_u8_zero bigEndian out256 cnt (i + 1) mem1

/-- The loop `for (int i = 0; i < n; i++) out256[data[i]]++;` with `cnt`
iterations left and loop counter `i`; `data[i]` is read from the memory as it is
in that iteration, and the increment wraps at 32 bits. -/
def histogram_u8_count (bigEndian : Bool) (data out256 : Nat) : Nat → Nat → Mem → Option Mem
  | 0, _, mem => some mem
  | cnt + 1, i, mem =>
    match load mem (data + i) with
    | none => none
    | some d =>
      match loadU32 bigEndian mem (out256 + 4 * d) with
      | none => none
      | some c =>
        match storeU32 bigEndian mem (out256 + 4 * d) ((c + 1) % U32) with
        | none => none
        | some mem1 => histogram_u8_count bigEndian data out256 cnt (i + 1) mem1

/-- Embedding of `void histogram_u8(const uint8_t* data, int n, uint32_t* out256)`;
the result is the memory after the call. -/
def histogram_u8 (bigEndian : Bool) (mem : Mem) (data : Nat) (n : Int) (out256 : Nat) :
    Option Mem :=
  match histogram_u8_zero bigEndian out256 256 0 mem with
  | none => none
  | some mem1 => histogram_u8_count bigEndian data out256 n.toNat 0 mem1

/-- Specification function for `histogram_u8`: the number of indices `k < n` with
`data[k] = v`. -/
def occurrences (mem : Mem) (data n v : Nat) : Nat :=
  ((mem.drop data).take n).count v

/-! ## examples/xor.c -/

/-- The loop `for (int i = 0; i < n; i++) out[i] = (uint8_t)(a[i] ^ b[i]);` with
`cnt` iterations left and loop counter `i`.  The three pointers address the same
memory, so a write through `out` is seen by later reads through `a` and `b`. -/
def xor_u8_loop (a b out : Nat) : Nat → Nat → Mem → Option Mem
  | 0, _, mem => some mem
  | cnt + 1, i, mem =>
    match load mem (a + i) with
    | none => none
    | some x =>
      match load mem (b + i) with
      | none => none
      | some y =>
        match store mem (out + i) ((x ^^^ y) % 256) with
        | none => none
        | some mem1 => xor_u8_loop a b out cnt (i + 1) mem1

/-- Embedding of `void xor_u8(const uint8_t* a, const uint8_t* b, uint8_t* out, int n)`;
the result is the memory after the call. -/
def xor_u8 (mem : Mem) (a b out : Nat) (n : Int) : Option Mem :=
  xor_u8_loop a b out n.toNat 0 mem

/-! ## native/relaxnative_test.h and native/examples/add_test.c

A native test returns `const char*`: `none` is the null pointer, `some s` a
pointer to the text `s`.  A C condition is an `int`, false exactly when `0`. -/

/-- The C value of the comparison `a == b`. -/
def cEq (a b : Int) : Int := if a = b then 1 else 0

/-- Embedding of `int add(int a, int b)`, for operands whose sum is an `int`. -/
def add (a b : Int) : Int := a + b

/-- The macro `RN_ASSERT(expr)` followed by the statements `rest`: when `expr`
is false the function returns the literal `"ASSERT(" #expr ")"`, where
`exprText` is the spelling `#expr` of the argument. -/
def RN_ASSERT (expr : Int) (exprText : String) (rest : Option String) : Option String :=
  if expr = 0 then some ("ASSERT(" ++ exprText ++ ")") else rest

/-- The macro `RN_ASSERT_MSG(expr, msg_literal)` followed by the statements
`rest`: when `expr` is false the function returns `(msg_literal)`. -/
def RN_ASSERT_MSG (expr : Int) (msg_literal : Option String) (rest : Option String) :
    Option String :=
  if expr = 0 then msg_literal else rest

/-- Embedding of `const char* test_add_basic()`. -/
def test_add_basic : Option String :=
  RN_ASSERT (cEq (add 2 3) 5) "add(2, 3) == 5" none

/-- Embedding of `const char* test_add_negative()`. -/
def test_add_negative : Option String :=
  RN_ASSERT (cEq (add (-2) (-3)) (-5)) "add(-2, -3) == -5" none

/-- Embedding of `const char* test_add_failure_example()`. -/
def test_add_failure_example : Option String :=
  RN_ASSERT_MSG (cEq 1 1) (some "should not fail") none

/-- Outcome of a native test. -/
inductive Outcome where
  | Pass : Outcome
  | Fail (message : Option String) : Outcome
  | SetupError (reason : String) : Outcome
  deriving DecidableEq, Repr

/-- Modelled from the spec: the Test Harness (not among the sources) decodes the
result of a test that returns a text pointer: a null pointer is `Pass`, a
non-null pointer is `Fail` with the pointed-to text as message.  The header
`relaxnative_test.h` states the same convention: `NULL pass, non-NULL =>
failure message`. -/
def decodeText : Option String → Outcome
  | none => Outcome.Pass
  | some message => Outcome.Fail (some message)

/-- A test function whose body is `RN_ASSERT(expr); return 0;`. -/
def assertTest (expr : Int) (exprText : String) : Option String :=
  RN_ASSERT expr exprText none

/-- A test function whose body is `RN_ASSERT_MSG(expr, msg); return 0;`. -/
def assertMsgTest (expr : Int) (msg : Option String) : Option String :=
  RN_ASSERT_MSG expr msg none

/-! ## examples/loop.c

`long` has 64 bits; `unsigned long long` arithmetic wraps modulo `2^64`, and the
conversion of an `unsigned long long` to `long` is two's complement. -/

/-- Largest value of type `long` (64 bits). -/
def LONG_MAX : Int := 9223372036854775807

/-- Number of values of type `unsigned long long`. -/
def U64 : Nat := 18446744073709551616

/-- The conversion of a `long` value to `unsigned long long`. -/
def toULL (x : Int) : Nat := (x % (U64 : Int)).toNat

/-- The conversion of an `unsigned long long` value to `long`. -/
def toLong (u : Nat) : Int := if (u : Int) ≤ LONG_MAX then (u : Int) else (u : Int) - (U64 : Int)

/-- The loop `for (long i = 0; i < n; i++) acc += (i ^ 0x9e3779b97f4a7c15ULL) & 0xffff;`
with `cnt` iterations left, loop counter `i` and accumulator `acc`: the right-hand
side is an `unsigned long long`, so the addition is done on `unsigned long long`
and the sum converted back to `long`. -/
def loop_sum_loop : Nat → Int → Int → Int
  | 0, _, acc => acc
  | cnt + 1, i, acc =>
    let x := (toULL i ^^^ 0x9e3779b97f4a7c15) &&& 0xffff
    loop_sum_loop cnt (i + 1) (toLong ((toULL acc + x) % U64))

/-- Embedding of `long loop_sum(long n)`. -/
def loop_sum (n : Int) : Int := loop_sum_loop n.toNat 0 0

/-- Specification function for `loop_sum`: the sum over `i = 0 .. n-1` of
`(i mod 65536) XOR 0x7c15`. -/
def loopSumSpec (n : Nat) : Nat :=
  ((List.range n).map (fun i => (i % 65536) ^^^ 0x7c15)).sum

/-! ## Floating-point buffers

A buffer of `float` or `double` lives in a memory of numbers of a type `F`, one
cell per number, and a pointer is an index into it.  The arithmetic of the
type is a parameter (`FloatOps`): what is proved for every `FloatOps` holds for
the arithmetic of the platform, whatever its rounding. -/

/-- The operations of a floating-point type used by the kernels: the constant
`0.0`, addition and multiplication. -/
structure FloatOps (F : Type) where
  zero : F
  add : F → F → F
  mul : F → F → F

/-- Arithmetic on integers: floating-point addition and multiplication are exact
on integers of small magnitude, so on such values the C operations are these. -/
def exactOps : FloatOps Int where
  zero := 0
  add := fun x y => x + y
  mul := fun x y => x * y

/-- Read of `p[0]` in a memory of numbers; `none` when `p` is outside the memory. -/
def loadF {F : Type} (mem : List F) (p : Nat) : Option F := mem[p]?

/-- Write of `p[0] = v` in a memory of numbers; `none` when `p` is outside the
memory. -/
def storeF {F : Type} (mem : List F) (p : Nat) (v : F) : Option (List F) :=
  if p < mem.length then some (mem.set p v) else none

/-! ## examples/registry/fast-matrix/matrix.c -/

/-- One statement `out[o] = a[ai] * b[bi] + a[aj] * b[bj];` of `mul2`: the four
operands are read from the current memory, then the result is stored. -/
def mul2_assign {F : Type} (ops : FloatOps F) (mem : List F) (out a b : Nat)
    (o ai bi aj bj : Nat) : Option (List F) :=
  match loadF mem (a + ai), loadF mem (b + bi), loadF mem (a + aj), loadF mem (b + bj) with
  | some x, some y, some z, some w => storeF mem (out + o) (ops.add (ops.mul x y) (ops.mul z w))
  | _, _, _, _ => none

/-- Embedding of `void mul2(double* out, double* a, double* b)`: the four
assignments in program order, each on the memory left by the one before; the
result is the memory after the call. -/
def mul2 {F : Type} (ops : FloatOps F) (mem : List F) (out a b : Nat) : Option (List F) :=
  match mul2_assign ops mem out a b 0 0 0 1 2 with
  | none => none
  | some m1 =>
    match mul2_assign ops m1 out a b 1 0 1 1 3 with
    | none => none
    | some m2 =>
      match mul2_assign ops m2 out a b 2 2 0 3 2 with
      | none => none
      | some m3 => mul2_assign ops m3 out a b 3 2 1 3 3

/-! ## examples/matmul.c -/

/-- The value of the `int` expression `i * n + k` on non-negative operands;
`none` when it exceeds `INT_MAX` (signed overflow is undefined behaviour). -/
def intMulAdd (i n k : Nat) : Option Nat :=
  if ((i * n + k : Nat) : Int) ≤ INT_MAX then some (i * n + k) else none

/-- The loop `for (int k = 0; k < K; k++) acc += A[i * K + k] * B[k * N + j];`
with `cnt` iterations left, loop counter `k` and accumulator `acc`. -/
def matmul_f32_k {F : Type} (ops : FloatOps F) (mem : List F) (A B K N i j : Nat) :
    Nat → Nat → F → Option F
  | 0, _, acc => some acc
  | cnt + 1, k, acc =>
    match intMulAdd i K k with
    | none => none
    | some ia =>
      match intMulAdd k N j with
      | none => none
      | some ib =>
        match loadF mem (A + ia), loadF mem (B + ib) with
        | some x, some y =>
          matmul_f32_k ops mem A B K N i j cnt (k + 1) (ops.add acc (ops.mul x y))
        | _, _ => none

/-- The loop `for (int j = 0; j < N; j++)` of `matmul_f32` for row `i`, with
`cnt` iterations left and loop counter `j`: `acc` starts at `0.0f`, the `k` loop
runs, then `C[i * N + j] = acc`. -/
def matmul_f32_j {F : Type} (ops : FloatOps F) (A B C K N i : Nat) :
    Nat → Nat → List F → Option (List F)
  | 0, _, mem => some mem
  | cnt + 1, j, mem =>
    match matmul_f32_k ops mem A B K N i j K 0 ops.zero with
    | none => none
    | some acc =>
      match intMulAdd i N j with
      | none => none
      | some ic =>
        match storeF mem (C + ic) acc with
        | none => none
        | some mem1 => matmul_f32_j ops A B C K N i cnt (j + 1) mem1

/-- The loop `for (int i = 0; i < M; i++)` of `matmul_f32`, with `cnt` iterations
left and loop counter `i`. -/
def matmul_f32_i {F : Type} (ops : FloatOps F) (A B C K N : Nat) :
    Nat → Nat → List F → Option (List F)
  | 0, _, mem => some mem
  | cnt + 1, i, mem =>
    match matmul_f32_j ops A B C K N i N 0 mem with
    | none => none
    | some mem1 => matmul_f32_i ops A B C K N cnt (i + 1) mem1

/-- Embedding of `void matmul_f32(const float* A, const float* B, float* C, int M,
int K, int N)`; the result is the memory after the call.  A loop bound that is
negative gives no iteration, and `K`, `N` are used in an index only inside the
loops they bound, where they are positive. -/
def matmul_f32 {F : Type} (ops : FloatOps F) (mem : List F) (A B C : Nat) (M K N : Int) :
    Option (List F) :=
  matmul_f32_i ops A B C K.toNat N.toNat M.toNat 0 mem

/-- Specification function for `matmul_f32`: the sum, accumulated from `0.0f` in
ascending `k`, of `a (i * K + k) * b (k * N + j)` for `k < K`, where `a` and `b`
give the entries of the row-major inputs. -/
def dotSpec {F : Type} (ops : FloatOps F) (a b : Nat → F) (K N i j : Nat) : F :=
  (List.range K).foldl (fun acc k => ops.add acc (ops.mul (a (i * K + k)) (b (k * N + j))))
    ops.zero

/-! ## Helper lemmas -/

theorem load_eq_some_of_lt (mem : Mem) (p : Nat) (h : p < mem.length) :
    load mem p = some (mem[p]) := by
  simp [load, h]

theorem toUChar_charOfByte (signedChar : Bool) (b : Nat) (hb : b < 256) :
    toUChar (charOfByte signedChar b) = (b : Int) := by
  unfold toUChar charOfByte
  split <;> omega

theorem byteOfChar_toChar_toUChar (signedChar : Bool) (value : Int) :
    byteOfChar (toChar signedChar (toUChar value)) = (value % 256).toNat := by
  unfold byteOfChar toChar toUChar charOfByte
  split <;> omega

theorem crc32_u8_loop_congr (mem mem1 : Mem) (data data1 : Nat) :
    ∀ (cnt i crc : Nat),
      (∀ k, k < cnt → load mem (data + (i + k)) = load mem1 (data1 + (i + k))) →
      crc32_u8_loop mem data cnt i crc = crc32_u8_loop mem1 data1 cnt i crc := by
  intro cnt
  induction cnt with
  | zero => intro i crc _; rfl
  | succ cnt ih =>
    intro i crc h
    have h0 := h 0 (Nat.succ_pos cnt)
    simp only [Nat.add_zero] at h0
    simp only [crc32_u8_loop, h0]
    cases load mem1 (data1 + i) with
    | none => rfl
    | some d =>
      simp only
      apply ih
      intro k hk
      have := h (k + 1) (Nat.succ_lt_succ hk)
      rw [show i + 1 + k = i + (k + 1) by omega]
      exact this

theorem store_eq_some_of_lt (mem : Mem) (p v : Nat) (h : p < mem.length) :
    store mem p v = some (mem.set p v) := by
  simp [store, h]

/-- Effect of the fill loop: the cells `out + i .. out + i + cnt - 1` receive the
byte of `value`, every other cell keeps its content. -/
theorem fill_u8_loop_spec (signedChar : Bool) (out : Nat) (value : Int) :
    ∀ (cnt i : Nat) (mem : Mem), out + i + cnt ≤ mem.length →
      ∃ mem1, fill_u8_loop signedChar out value cnt i mem = some mem1 ∧
        mem1.length = mem.length ∧
        (∀ p, out + i ≤ p → p < out + i + cnt → load mem1 p = some (value % 256).toNat) ∧
        (∀ p, (p < out + i ∨ out + i + cnt ≤ p) → load mem1 p = load mem p) := by
  intro cnt
  induction cnt with
  | zero =>
    intro i mem _
    exact ⟨mem, rfl, rfl, fun p h1 h2 => by omega, fun p _ => rfl⟩
  | succ cnt ih =>
    intro i mem hlen
    have hlt : out + i < mem.length := by omega
    obtain ⟨mem1, h1, h2, h3, h4⟩ :=
      ih (i + 1) (mem.set (out + i) (value % 256).toNat) (by simp; omega)
    refine ⟨mem1, ?_, ?_, ?_, ?_⟩
    · simp only [fill_u8_loop, byteOfChar_toChar_toUChar, store_eq_some_of_lt mem _ _ hlt]
      exact h1
    · simpa using h2
    · intro p hp1 hp2
      by_cases hp : p = out + i
      · subst hp
        rw [h4 (out + i) (Or.inl (by omega))]
        simp [load, hlt]
      · exact h3 p (by omega) (by omega)
    · intro p hp
      rw [h4 p (by omega)]
      have hne : out + i ≠ p := by omega
      simp [load, List.getElem?_set_ne hne]

/-- The sum loop over cells that all hold the byte `v`. -/
theorem sum_u8_loop_const (signedChar : Bool) (mem : Mem) (buf v : Nat) (hv : v < 256) :
    ∀ (cnt i : Nat) (s : Int),
      (∀ k, k < cnt → load mem (buf + (i + k)) = some v) →
      0 ≤ s → s + (cnt : Int) * (v : Int) ≤ INT_MAX →
      sum_u8_loop signedChar mem buf cnt i s = some (s + (cnt : Int) * (v : Int)) := by
  intro cnt
  induction cnt with
  | zero => intro i s _ _ _; simp [sum_u8_loop]
  | succ cnt ih =>
    intro i s h hs hmax
    have h0 := h 0 (Nat.succ_pos cnt)
    simp only [Nat.add_zero] at h0
    have hmul : ((cnt + 1 : Nat) : Int) * (v : Int) = (v : Int) + (cnt : Int) * (v : Int) := by
      push_cast; ring
    have hnn : (0 : Int) ≤ (cnt : Int) * (v : Int) := by positivity
    have hle : s + (v : Int) ≤ INT_MAX := by rw [hmul] at hmax; omega
    simp only [sum_u8_loop, h0, toUChar_charOfByte signedChar v hv, hle, if_true]
    rw [ih (i + 1) (s + (v : Int))
      (fun k hk => by
        have := h (k + 1) (Nat.succ_lt_succ hk)
        rw [show i + 1 + k = i + (k + 1) by omega]; exact this)
      (by omega) (by rw [hmul] at hmax; omega)]
    rw [hmul]; congr 1; ring

/-- The sum loop over a memory of bytes: the bytes are added as the values
0..255 they are, whatever the signedness of `char`. -/
theorem sum_u8_loop_spec (signedChar : Bool) (mem : Mem) (buf : Nat) (hb : Bytes mem) :
    ∀ (cnt i : Nat) (s : Int), buf + i + cnt ≤ mem.length →
      0 ≤ s → s + 255 * (cnt : Int) ≤ INT_MAX →
      ∃ t : Nat, sum_u8_loop signedChar mem buf cnt i s = some (s + (t : Int)) ∧
        t = ((mem.drop (buf + i)).take cnt).sum ∧ t ≤ 255 * cnt := by
  intro cnt
  induction cnt with
  | zero => intro i s _ _ _; exact ⟨0, by simp [sum_u8_loop], by simp, by simp⟩
  | succ cnt ih =>
    intro i s hlen hs hmax
    have hlt : buf + i < mem.length := by omega
    have hx : mem[buf + i] < 256 := hb _ (List.getElem_mem hlt)
    have hle : s + ((mem[buf + i] : Nat) : Int) ≤ INT_MAX := by push_cast at hmax; omega
    obtain ⟨t, h1, h2, h3⟩ := ih (i + 1) (s + ((mem[buf + i] : Nat) : Int)) (by omega) (by omega)
      (by push_cast at hmax; omega)
    refine ⟨mem[buf + i] + t, ?_, ?_, by omega⟩
    · simp only [sum_u8_loop, load_eq_some_of_lt mem _ hlt,
        toUChar_charOfByte signedChar _ hx, hle, if_true]
      rw [h1]; push_cast; congr 1; ring
    · rw [List.drop_eq_getElem_cons hlt, List.take_succ_cons, List.sum_cons, h2]
      rfl

theorem occurrences_le (mem : Mem) (data n v : Nat) : occurrences mem data n v ≤ n := by
  unfold occurrences
  calc ((mem.drop data).take n).count v ≤ ((mem.drop data).take n).length := List.count_le_length _ _
    _ ≤ n := by simp

theorem occurrences_succ (mem : Mem) (data n v : Nat) (h : data + n < mem.length) :
    occurrences mem data (n + 1) v =
      occurrences mem data n v + (if mem[data + n] = v then 1 else 0) := by
  unfold occurrences
  have hn : n < (mem.drop data).length := by simp; omega
  rw [List.take_succ, List.getElem?_eq_getElem hn]
  simp [List.count_append, List.count_singleton]


theorem xor_byte_mod (x y : Nat) (hx : x < 256) (hy : y < 256) : (x ^^^ y) % 256 = x ^^^ y := by
  apply Nat.mod_eq_of_lt
  exact Nat.xor_lt_two_pow (n := 8) hx hy

/-- Effect of the xor loop started at loop counter `i` on memory `m`, where
`mem` is the memory before the call: no write `out[k]` hits a byte `a[j]` or
`b[j]` that is read later (`k < j`), the cells `out[0 .. i-1]` already hold their
results and every other cell still has its content of `mem`. -/
theorem xor_u8_loop_spec (mem : Mem) (a b out : Nat) (hb : Bytes mem) :
    ∀ (cnt i : Nat) (m : Mem), m.length = mem.length →
      a + i + cnt ≤ mem.length → b + i + cnt ≤ mem.length → out + i + cnt ≤ mem.length →
      (∀ k j, k < j → j < i + cnt → out + k ≠ a + j ∧ out + k ≠ b + j) →
      (∀ p, (p < out ∨ out + i ≤ p) → load m p = load mem p) →
      (∀ k, k < i → ∃ x y, load mem (a + k) = some x ∧ load mem (b + k) = some y ∧
        load m (out + k) = some (x ^^^ y)) →
      ∃ mem1, xor_u8_loop a b out cnt i m = some mem1 ∧ mem1.length = mem.length ∧
        (∀ p, (p < out ∨ out + i + cnt ≤ p) → load mem1 p = load mem p) ∧
        (∀ k, k < i + cnt → ∃ x y, load mem (a + k) = some x ∧ load mem (b + k) = some y ∧
          load mem1 (out + k) = some (x ^^^ y)) := by
  intro cnt
  induction cnt with
  | zero =>
    intro i m hm _ _ _ _ hout hin
    exact ⟨m, rfl, hm, fun p hp => hout p (by omega), fun k hk => hin k (by omega)⟩
  | succ cnt ih =>
    intro i m hm ha hbb ho hnc hout hin
    have hla : a + i < mem.length := by omega
    have hlb : b + i < mem.length := by omega
    have hlo : out + i < m.length := by omega
    have hxa : mem[a + i] < 256 := hb _ (List.getElem_mem hla)
    have hxb : mem[b + i] < 256 := hb _ (List.getElem_mem hlb)
    have ra : load m (a + i) = some (mem[a + i]) := by
      rw [hout (a + i) ?_, load_eq_some_of_lt mem _ hla]
      by_contra hc
      have := (hnc (a + i - out) i (by omega) (by omega)).1
      omega
    have rb : load m (b + i) = some (mem[b + i]) := by
      rw [hout (b + i) ?_, load_eq_some_of_lt mem _ hlb]
      by_contra hc
      have := (hnc (b + i - out) i (by omega) (by omega)).2
      omega
    obtain ⟨mem1, h1, h2, h3, h4⟩ := ih (i + 1) (m.set (out + i) (mem[a + i] ^^^ mem[b + i]))
      (by simpa using hm) (by omega) (by omega) (by omega)
      (fun k j hkj hj => hnc k j hkj (by omega))
      (fun p hp => by
        have hne : out + i ≠ p := by omega
        rw [← hout p (by omega)]
        simp [load, List.getElem?_set_ne hne])
      (fun k hk => by
        by_cases hki : k = i
        · subst hki
          exact ⟨mem[a + k], mem[b + k], load_eq_some_of_lt mem _ hla,
            load_eq_some_of_lt mem _ hlb, by simp [load, hlo]⟩
        · obtain ⟨x, y, e1, e2, e3⟩ := hin k (by omega)
          have hne : out + i ≠ out + k := by omega
          exact ⟨x, y, e1, e2, by rw [← e3]; simp [load, List.getElem?_set_ne hne]⟩)
    refine ⟨mem1, ?_, h2, fun p hp => h3 p (by omega), fun k hk => h4 k (by omega)⟩
    simp only [xor_u8_loop, ra, rb, xor_byte_mod _ _ hxa hxb, store_eq_some_of_lt m _ _ hlo]
    exact h1

theorem toULL_natCast (k : Nat) (hk : k < U64) : toULL (k : Int) = k := by
  unfold toULL
  unfold U64 at hk ⊢
  omega

theorem toLong_natCast (u : Nat) (hu : (u : Int) ≤ LONG_MAX) : toLong u = (u : Int) := by
  unfold toLong
  rw [if_pos hu]

/-- The value added by one iteration of `loop_sum`: the low 16 bits of
`i ^ 0x9e3779b97f4a7c15` are `(i mod 65536) ^ 0x7c15`. -/
theorem loop_sum_term (k : Nat) :
    (k ^^^ 0x9e3779b97f4a7c15) &&& 0xffff = (k % 65536) ^^^ 0x7c15 := by
  rw [Nat.and_xor_distrib_right]
  have h1 : k &&& 0xffff = k % 65536 := Nat.and_pow_two_sub_one_eq_mod k 16
  have h2 : (0x9e3779b97f4a7c15 : Nat) &&& 0xffff = 0x7c15 := by decide
  rw [h1, h2]

theorem loop_sum_term_le (k : Nat) : (k % 65536) ^^^ 0x7c15 ≤ 65535 := by
  rw [← loop_sum_term]
  exact Nat.and_le_right

/-- The loop of `loop_sum` started at counter `i` with accumulator `a`, when the
running sum stays within `long`. -/
theorem loop_sum_loop_spec :
    ∀ (cnt i a : Nat), a + 65535 * cnt ≤ 9223372036854775807 →
      i + cnt ≤ 9223372036854775808 →
      loop_sum_loop cnt (i : Int) (a : Int) =
        ((a + ((List.range' i cnt).map (fun k => (k % 65536) ^^^ 0x7c15)).sum : Nat) : Int) := by
  intro cnt
  induction cnt with
  | zero => intro i a _ _; simp [loop_sum_loop]
  | succ cnt ih =>
    intro i a ha hi
    have hx := loop_sum_term_le i
    have hiU : i < U64 := by unfold U64; omega
    have haU : a < U64 := by unfold U64; omega
    have hmod : (a + ((i % 65536) ^^^ 0x7c15)) % U64 = a + ((i % 65536) ^^^ 0x7c15) := by
      apply Nat.mod_eq_of_lt; unfold U64; omega
    have hlong : (((a + ((i % 65536) ^^^ 0x7c15) : Nat)) : Int) ≤ LONG_MAX := by
      unfold LONG_MAX; omega
    have step : loop_sum_loop (cnt + 1) (i : Int) (a : Int) =
        loop_sum_loop cnt (((i + 1 : Nat)) : Int) (((a + ((i % 65536) ^^^ 0x7c15) : Nat)) : Int) := by
      simp only [loop_sum_loop, toULL_natCast i hiU, toULL_natCast a haU, loop_sum_term, hmod,
        toLong_natCast _ hlong]
      rfl
    rw [step, ih (i + 1) (a + ((i % 65536) ^^^ 0x7c15)) (by omega) (by omega)]
    simp only [List.range'_succ, List.map_cons, List.sum_cons]
    congr 1
    omega

theorem loadF_set_ne {F : Type} (mem : List F) (p q : Nat) (v : F) (h : p ≠ q) :
    loadF (mem.set p v) q = loadF mem q := by
  simp [loadF, List.getElem?_set_ne h]

theorem loadF_set_eq {F : Type} (mem : List F) (p : Nat) (v : F) (h : p < mem.length) :
    loadF (mem.set p v) p = some v := by
  simp [loadF, h]

theorem storeF_eq_some_of_lt {F : Type} (mem : List F) (p : Nat) (v : F)
    (h : p < mem.length) : storeF mem p v = some (mem.set p v) := by
  simp [storeF, h]

/-- One statement of `mul2` whose four operands are readable and whose target
cell is in the memory. -/
theorem mul2_assign_eq {F : Type} (ops : FloatOps F) (mem : List F) (out a b : Nat)
    (o ai bi aj bj : Nat) (x y z w : F)
    (hx : loadF mem (a + ai) = some x) (hy : loadF mem (b + bi) = some y)
    (hz : loadF mem (a + aj) = some z) (hw : loadF mem (b + bj) = some w)
    (ho : out + o < mem.length) :
    mul2_assign ops mem out a b o ai bi aj bj =
      some (mem.set (out + o) (ops.add (ops.mul x y) (ops.mul z w))) := by
  simp only [mul2_assign, hx, hy, hz, hw, storeF_eq_some_of_lt mem _ _ ho]

theorem intMulAdd_eq_some (i n k : Nat) (h : i * n + k ≤ 2147483647) :
    intMulAdd i n k = some (i * n + k) := by
  unfold intMulAdd INT_MAX
  rw [if_pos (by omega)]

theorem intMulAdd_eq_none (i n k : Nat) (h : 2147483647 < i * n + k) :
    intMulAdd i n k = none := by
  unfold intMulAdd INT_MAX
  rw [if_neg (by omega)]

/-- Row-major index bound: entry `(i, k)` of an `M x K` matrix lies among its
`M * K` cells. -/
theorem rowMajor_lt (M K i k : Nat) (hi : i < M) (hk : k < K) : i * K + k < M * K := by
  calc i * K + k < i * K + K := by omega
    _ = (i + 1) * K := by ring
    _ ≤ M * K := Nat.mul_le_mul_right K hi

/-- The `k` loop of `matmul_f32` on readable operands: the accumulator runs
through the products in ascending `k`. -/
theorem matmul_f32_k_spec {F : Type} (ops : FloatOps F) (mem : List F) (A B K N i j : Nat)
    (a b : Nat → F)
    (hA : ∀ k, k < K → loadF mem (A + (i * K + k)) = some (a (i * K + k)))
    (hB : ∀ k, k < K → loadF mem (B + (k * N + j)) = some (b (k * N + j)))
    (hIA : ∀ k, k < K → i * K + k ≤ 2147483647)
    (hIB : ∀ k, k < K → k * N + j ≤ 2147483647) :
    ∀ (cnt k : Nat) (acc : F), k + cnt ≤ K →
      matmul_f32_k ops mem A B K N i j cnt k acc =
        some ((List.range' k cnt).foldl
          (fun acc k => ops.add acc (ops.mul (a (i * K + k)) (b (k * N + j)))) acc) := by
  intro cnt
  induction cnt with
  | zero => intro k acc _; simp [matmul_f32_k]
  | succ cnt ih =>
    intro k acc hk
    have hkK : k < K := by omega
    simp only [matmul_f32_k, intMulAdd_eq_some _ _ _ (hIA k hkK),
      intMulAdd_eq_some _ _ _ (hIB k hkK), hA k hkK, hB k hkK]
    rw [ih (k + 1) _ (by omega)]
    simp [List.range'_succ]

/-- The complete `k` loop computes `dotSpec`. -/
theorem matmul_f32_k_dot {F : Type} (ops : FloatOps F) (mem : List F) (A B K N i j : Nat)
    (a b : Nat → F)
    (hA : ∀ k, k < K → loadF mem (A + (i * K + k)) = some (a (i * K + k)))
    (hB : ∀ k, k < K → loadF mem (B + (k * N + j)) = some (b (k * N + j)))
    (hIA : ∀ k, k < K → i * K + k ≤ 2147483647)
    (hIB : ∀ k, k < K → k * N + j ≤ 2147483647) :
    matmul_f32_k ops mem A B K N i j K 0 ops.zero = some (dotSpec ops a b K N i j) := by
  rw [matmul_f32_k_spec ops mem A B K N i j a b hA hB hIA hIB K 0 ops.zero (by omega)]
  unfold dotSpec
  rw [List.range_eq_range']

/-- The `j` loop of `matmul_f32` for row `i`: the cells `C[i * N + j] ..
C[i * N + j + cnt - 1]` receive their dot products, every other cell keeps its
content. -/
theorem matmul_f32_j_spec {F : Type} (ops : FloatOps F) (A B C K N i : Nat) (a b : Nat → F)
    (hIA : ∀ k, k < K → i * K + k ≤ 2147483647)
    (hIB : ∀ k j, k < K → j < N → k * N + j ≤ 2147483647)
    (hIC : ∀ j, j < N → i * N + j ≤ 2147483647)
    (hdA : ∀ j k, j < N → k < K → C + (i * N + j) ≠ A + (i * K + k))
    (hdB : ∀ j k j2, j < N → k < K → j2 < N → C + (i * N + j) ≠ B + (k * N + j2)) :
    ∀ (cnt j : Nat) (m : List F), j + cnt ≤ N → C + (i * N + N) ≤ m.length →
      (∀ k, k < K → loadF m (A + (i * K + k)) = some (a (i * K + k))) →
      (∀ k j, k < K → j < N → loadF m (B + (k * N + j)) = some (b (k * N + j))) →
      ∃ m1, matmul_f32_j ops A B C K N i cnt j m = some m1 ∧ m1.length = m.length ∧
        (∀ j1, j ≤ j1 → j1 < j + cnt →
          loadF m1 (C + (i * N + j1)) = some (dotSpec ops a b K N i j1)) ∧
        (∀ p, (p < C + (i * N + j) ∨ C + (i * N + j) + cnt ≤ p) → loadF m1 p = loadF m p) := by
  intro cnt
  induction cnt with
  | zero =>
    intro j m _ _ _ _
    exact ⟨m, rfl, rfl, fun j1 h1 h2 => by omega, fun p _ => rfl⟩
  | succ cnt ih =>
    intro j m hj hlen hA hB
    have hjN : j < N := by omega
    have hdot := matmul_f32_k_dot ops m A B K N i j a b hA (fun k hk => hB k j hk hjN) hIA
      (fun k hk => hIB k j hk hjN)
    have hst : C + (i * N + j) < m.length := by omega
    obtain ⟨m1, h1, h2, h3, h4⟩ := ih (j + 1)
      (m.set (C + (i * N + j)) (dotSpec ops a b K N i j)) (by omega) (by simpa using hlen)
      (fun k hk => by rw [loadF_set_ne _ _ _ _ (hdA j k hjN hk)]; exact hA k hk)
      (fun k j2 hk hj2 => by rw [loadF_set_ne _ _ _ _ (hdB j k j2 hjN hk hj2)]; exact hB k j2 hk hj2)
    refine ⟨m1, ?_, by simpa using h2, ?_, ?_⟩
    · simp only [matmul_f32_j, hdot, intMulAdd_eq_some _ _ _ (hIC j hjN),
        storeF_eq_some_of_lt m _ _ hst]
      exact h1
    · intro j1 hj1 hj2
      by_cases e : j1 = j
      · subst e
        rw [h4 _ (Or.inl (by omega))]
        exact loadF_set_eq m _ _ hst
      · exact h3 j1 (by omega) (by omega)
    · intro p hp
      rw [h4 p (by omega)]
      exact loadF_set_ne m _ _ _ (by omega)

/-- The `i` loop of `matmul_f32`: the rows `i .. i + cnt - 1` of `C` receive their
dot products, every other cell keeps its content. -/
theorem matmul_f32_i_spec {F : Type} (ops : FloatOps F) (A B C M K N : Nat) (a b : Nat → F)
    (hIA : M * K ≤ 2147483648) (hIB : K * N ≤ 2147483648) (hIC : M * N ≤ 2147483648)
    (hdA : ∀ p q, p < M * N → q < M * K → C + p ≠ A + q)
    (hdB : ∀ p q, p < M * N → q < K * N → C + p ≠ B + q) :
    ∀ (cnt i : Nat) (m : List F), i + cnt ≤ M → C + M * N ≤ m.length →
      (∀ q, q < M * K → loadF m (A + q) = some (a q)) →
      (∀ q, q < K * N → loadF m (B + q) = some (b q)) →
      ∃ m1, matmul_f32_i ops A B C K N cnt i m = some m1 ∧ m1.length = m.length ∧
        (∀ i1 j1, i ≤ i1 → i1 < i + cnt → j1 < N →
          loadF m1 (C + (i1 * N + j1)) = some (dotSpec ops a b K N i1 j1)) ∧
        (∀ p, (p < C + i * N ∨ C + (i + cnt) * N ≤ p) → loadF m1 p = loadF m p) := by
  intro cnt
  induction cnt with
  | zero =>
    intro i m _ _ _ _
    exact ⟨m, rfl, rfl, fun i1 j1 h1 h2 _ => by omega, fun p _ => rfl⟩
  | succ cnt ih =>
    intro i m hi hlen hA hB
    have hiM : i < M := by omega
    have hrow : i * N + N ≤ M * N := by
      calc i * N + N = (i + 1) * N := by ring
        _ ≤ M * N := Nat.mul_le_mul_right N hiM
    have hsucc : (i + 1) * N = i * N + N := by ring
    obtain ⟨m1, j1e, j2e, j3e, j4e⟩ := matmul_f32_j_spec ops A B C K N i a b
      (fun k hk => by have := rowMajor_lt M K i k hiM hk; omega)
      (fun k j hk hj => by have := rowMajor_lt K N k j hk hj; omega)
      (fun j hj => by have := rowMajor_lt M N i j hiM hj; omega)
      (fun j k hj hk => hdA _ _ (rowMajor_lt M N i j hiM hj) (rowMajor_lt M K i k hiM hk))
      (fun j k j2 hj hk hj2 => hdB _ _ (rowMajor_lt M N i j hiM hj) (rowMajor_lt K N k j2 hk hj2))
      N 0 m (by omega) (by omega)
      (fun k hk => hA _ (rowMajor_lt M K i k hiM hk))
      (fun k j hk hj => hB _ (rowMajor_lt K N k j hk hj))
    have keepA : ∀ q, q < M * K → loadF m1 (A + q) = some (a q) := by
      intro q hq
      rw [j4e (A + q) ?_]
      · exact hA q hq
      · by_contra hc
        exact hdA (A + q - C) q (by omega) hq (by omega)
    have keepB : ∀ q, q < K * N → loadF m1 (B + q) = some (b q) := by
      intro q hq
      rw [j4e (B + q) ?_]
      · exact hB q hq
      · by_contra hc
        exact hdB (B + q - C) q (by omega) hq (by omega)
    obtain ⟨m2, i1e, i2e, i3e, i4e⟩ := ih (i + 1) m1 (by omega) (by omega) keepA keepB
    refine ⟨m2, ?_, by omega, ?_, ?_⟩
    · simp only [matmul_f32_i, j1e]
      exact i1e
    · intro i1 j1 h1 h2 hj1
      by_cases e : i1 = i
      · subst e
        rw [i4e _ (Or.inl (by omega))]
        exact j3e j1 (by omega) (by omega)
      · exact i3e i1 j1 (by omega) (by omega) hj1
    · intro p hp
      have hsucc2 : (i + (cnt + 1)) * N = (i + 1 + cnt) * N := by
        rw [show i + (cnt + 1) = i + 1 + cnt by omega]
      have hmono : (i + 1) * N ≤ (i + 1 + cnt) * N := Nat.mul_le_mul_right N (by omega)
      rw [i4e p (by omega), j4e p (by omega)]

theorem loadF_replicate {F : Type} (x : F) (n p : Nat) (h : p < n) :
    loadF (List.replicate n x) p = some x := by
  unfold loadF
  rw [List.getElem?_replicate, if_pos h]

theorem matmul_f32_j_none_of_k {F : Type} (ops : FloatOps F) (A B C K N i cnt j : Nat)
    (mem : List F) (h : matmul_f32_k ops mem A B K N i j K 0 ops.zero = none) :
    matmul_f32_j ops A B C K N i (cnt + 1) j mem = none := by
  simp only [matmul_f32_j, h]

theorem matmul_f32_i_none_of_j {F : Type} (ops : FloatOps F) (A B C K N cnt i : Nat)
    (mem : List F) (h : matmul_f32_j ops A B C K N i N 0 mem = none) :
    matmul_f32_i ops A B C K N (cnt + 1) i mem = none := by
  simp only [matmul_f32_i, h]

/-- One iteration of the `k` loop whose two indices are `int` values and whose two
operands are readable. -/
theorem matmul_f32_k_step {F : Type} (ops : FloatOps F) (mem : List F)
    (A B K N i j cnt k ia ib : Nat) (acc x y : F)
    (hia : intMulAdd i K k = some ia) (hib : intMulAdd k N j = some ib)
    (hx : loadF mem (A + ia) = some x) (hy : loadF mem (B + ib) = some y) :
    matmul_f32_k ops mem A B K N i j (cnt + 1) k acc =
      matmul_f32_k ops mem A B K N i j cnt (k + 1) (ops.add acc (ops.mul x y)) := by
  simp only [matmul_f32_k, hia, hib, hx, hy]

/-- An iteration of the `k` loop in which the index `k * N + j` overflows. -/
theorem matmul_f32_k_overflow {F : Type} (ops : FloatOps F) (mem : List F)
    (A B K N i j cnt k : Nat) (acc : F) (hib : intMulAdd k N j = none) :
    matmul_f32_k ops mem A B K N i j (cnt + 1) k acc = none := by
  cases hia : intMulAdd i K k <;> simp only [matmul_f32_k, hia, hib]

theorem load_set_ne (mem : Mem) (p q v : Nat) (h : p ≠ q) :
    load (mem.set p v) q = load mem q := by
  simp [load, List.getElem?_set_ne h]

theorem load_set_eq (mem : Mem) (p v : Nat) (h : p < mem.length) :
    load (mem.set p v) p = some v := by
  simp [load, h]

/-- A `uint32_t` read depends only on its four bytes. -/
theorem loadU32_congr (bigEndian : Bool) (m1 m2 : Mem) (p : Nat)
    (h : ∀ q, p ≤ q → q < p + 4 → load m1 q = load m2 q) :
    loadU32 bigEndian m1 p = loadU32 bigEndian m2 p := by
  unfold loadU32
  rw [h p (by omega) (by omega), h (p + 1) (by omega) (by omega),
    h (p + 2) (by omega) (by omega), h (p + 3) (by omega) (by omega)]

/-- A `uint32_t` whose four bytes are 0 is 0. -/
theorem loadU32_zero (bigEndian : Bool) (m : Mem) (p : Nat)
    (h : ∀ q, p ≤ q → q < p + 4 → load m q = some 0) :
    loadU32 bigEndian m p = some 0 := by
  unfold loadU32
  rw [h p (by omega) (by omega), h (p + 1) (by omega) (by omega),
    h (p + 2) (by omega) (by omega), h (p + 3) (by omega) (by omega)]
  cases bigEndian <;> rfl

/-- Effect of a `uint32_t` write inside the memory: the value is read back, its
four bytes are bytes, and every other byte keeps its content. -/
theorem storeU32_spec (bigEndian : Bool) (mem : Mem) (p w : Nat)
    (hp : p + 4 ≤ mem.length) (hw : w < U32) :
    ∃ m1, storeU32 bigEndian mem p w = some m1 ∧ m1.length = mem.length ∧
      loadU32 bigEndian m1 p = some w ∧
      (w = 0 → ∀ q, p ≤ q → q < p + 4 → load m1 q = some 0) ∧
      (∀ q, (q < p ∨ p + 4 ≤ q) → load m1 q = load mem q) := by
  unfold U32 at hw
  cases bigEndian
  · refine ⟨(((mem.set p (w % 256)).set (p + 1) (w / 256 % 256)).set (p + 2)
        (w / 65536 % 256)).set (p + 3) (w / 16777216 % 256), ?_, by simp, ?_, ?_, ?_⟩
    · simp [storeU32, hp]
    · unfold loadU32
      rw [load_set_ne _ _ _ _ (by omega), load_set_ne _ _ _ _ (by omega),
        load_set_ne _ _ _ _ (by omega), load_set_eq _ _ _ (by omega),
        load_set_ne _ _ _ _ (by omega), load_set_ne _ _ _ _ (by omega),
        load_set_eq _ _ _ (by simp; omega),
        load_set_ne _ _ _ _ (by omega), load_set_eq _ _ _ (by simp; omega),
        load_set_eq _ _ _ (by simp; omega)]
      simp only [Bool.false_eq_true, if_false]
      congr 1
      omega
    · intro h0 q h1 h2
      subst h0
      have hq : q = p ∨ q = p + 1 ∨ q = p + 2 ∨ q = p + 3 := by omega
      rcases hq with e | e | e | e <;> subst e
      · rw [load_set_ne _ _ _ _ (by omega), load_set_ne _ _ _ _ (by omega),
          load_set_ne _ _ _ _ (by omega), load_set_eq _ _ _ (by omega)]
      · rw [load_set_ne _ _ _ _ (by omega), load_set_ne _ _ _ _ (by omega),
          load_set_eq _ _ _ (by simp; omega)]
      · rw [load_set_ne _ _ _ _ (by omega), load_set_eq _ _ _ (by simp; omega)]
      · rw [load_set_eq _ _ _ (by simp; omega)]
    · intro q hq
      rw [load_set_ne _ _ _ _ (by omega), load_set_ne _ _ _ _ (by omega),
        load_set_ne _ _ _ _ (by omega), load_set_ne _ _ _ _ (by omega)]
  · refine ⟨(((mem.set p (w / 16777216 % 256)).set (p + 1) (w / 65536 % 256)).set (p + 2)
        (w / 256 % 256)).set (p + 3) (w % 256), ?_, by simp, ?_, ?_, ?_⟩
    · simp [storeU32, hp]
    · unfold loadU32
      rw [load_set_ne _ _ _ _ (by omega), load_set_ne _ _ _ _ (by omega),
        load_set_ne _ _ _ _ (by omega), load_set_eq _ _ _ (by omega),
        load_set_ne _ _ _ _ (by omega), load_set_ne _ _ _ _ (by omega),
        load_set_eq _ _ _ (by simp; omega),
        load_set_ne _ _ _ _ (by omega), load_set_eq _ _ _ (by simp; omega),
        load_set_eq _ _ _ (by simp; omega)]
      simp only [if_true]
      congr 1
      omega
    · intro h0 q h1 h2
      subst h0
      have hq : q = p ∨ q = p + 1 ∨ q = p + 2 ∨ q = p + 3 := by omega
      rcases hq with e | e | e | e <;> subst e
      · rw [load_set_ne _ _ _ _ (by omega), load_set_ne _ _ _ _ (by omega),
          load_set_ne _ _ _ _ (by omega), load_set_eq _ _ _ (by omega)]
      · rw [load_set_ne _ _ _ _ (by omega), load_set_ne _ _ _ _ (by omega),
          load_set_eq _ _ _ (by simp; omega)]
      · rw [load_set_ne _ _ _ _ (by omega), load_set_eq _ _ _ (by simp; omega)]
      · rw [load_set_eq _ _ _ (by simp; omega)]
    · intro q hq
      rw [load_set_ne _ _ _ _ (by omega), load_set_ne _ _ _ _ (by omega),
        load_set_ne _ _ _ _ (by omega), load_set_ne _ _ _ _ (by omega)]

/-- Effect of the zeroing loop of `histogram_u8`: the bytes of the buckets
`i .. i + cnt - 1` become 0, every other byte keeps its content. -/
theorem histogram_u8_zero_spec (bigEndian : Bool) (out256 : Nat) :
    ∀ (cnt i : Nat) (mem : Mem), out256 + 4 * (i + cnt) ≤ mem.length →
      ∃ m1, histogram_u8_zero bigEndian out256 cnt i mem = some m1 ∧
        m1.length = mem.length ∧
        (∀ q, out256 + 4 * i ≤ q → q < out256 + 4 * (i + cnt) → load m1 q = some 0) ∧
        (∀ q, (q < out256 + 4 * i ∨ out256 + 4 * (i + cnt) ≤ q) → load m1 q = load mem q) := by
  intro cnt
  induction cnt with
  | zero =>
    intro i mem _
    exact ⟨mem, rfl, rfl, fun q h1 h2 => by omega, fun q _ => rfl⟩
  | succ cnt ih =>
    intro i mem hlen
    obtain ⟨m0, s1, s2, _, s4, s5⟩ :=
      storeU32_spec bigEndian mem (out256 + 4 * i) 0 (by omega) (by unfold U32; omega)
    obtain ⟨m1, h1, h2, h3, h4⟩ := ih (i + 1) m0 (by omega)
    refine ⟨m1, ?_, by omega, ?_, ?_⟩
    · simp only [histogram_u8_zero, s1]
      exact h1
    · intro q hq1 hq2
      by_cases hq : q < out256 + 4 * (i + 1)
      · rw [h4 q (Or.inl hq)]
        exact s4 rfl q hq1 (by omega)
      · exact h3 q (by omega) (by omega)
    · intro q hq
      rw [h4 q (by omega), s5 q (by omega)]

theorem occurrences_zero (mem : Mem) (data v : Nat) : occurrences mem data 0 v = 0 := by
  simp [occurrences]

/-- Effect of the counting loop of `histogram_u8`, started at loop counter `i`
with the buckets holding the occurrences among `data[0 .. i-1]`, when no byte of
`data[0 .. n-1]` lies in the 1024 bytes of `out256`; `mem` is the memory before
the call. -/
theorem histogram_u8_count_spec (bigEndian : Bool) (mem : Mem) (data out256 n : Nat)
    (hb : Bytes mem) (hdata : data + n ≤ mem.length) (hn : n < U32)
    (hdis : ∀ k, k < n → data + k < out256 ∨ out256 + 1024 ≤ data + k) :
    ∀ (cnt i : Nat) (m : Mem), i + cnt ≤ n → out256 + 1024 ≤ m.length →
      (∀ k, k < n → load m (data + k) = load mem (data + k)) →
      (∀ v, v < 256 → loadU32 bigEndian m (out256 + 4 * v) = some (occurrences mem data i v)) →
      ∃ m1, histogram_u8_count bigEndian data out256 cnt i m = some m1 ∧
        m1.length = m.length ∧
        (∀ v, v < 256 →
          loadU32 bigEndian m1 (out256 + 4 * v) = some (occurrences mem data (i + cnt) v)) ∧
        (∀ q, (q < out256 ∨ out256 + 1024 ≤ q) → load m1 q = load m q) := by
  intro cnt
  induction cnt with
  | zero =>
    intro i m _ _ _ h
    exact ⟨m, rfl, rfl, h, fun q _ => rfl⟩
  | succ cnt ih =>
    intro i m hi hlen hd h
    have hlt : data + i < mem.length := by omega
    have hdv : mem[data + i] < 256 := hb _ (List.getElem_mem hlt)
    have hrd : load m (data + i) = some (mem[data + i]) := by
      rw [hd i (by omega)]; exact load_eq_some_of_lt mem _ hlt
    have hocc := occurrences_le mem data i (mem[data + i])
    have hmod : (occurrences mem data i (mem[data + i]) + 1) % U32 =
        occurrences mem data i (mem[data + i]) + 1 := by
      apply Nat.mod_eq_of_lt; omega
    obtain ⟨m0, s1, s2, s3, _, s5⟩ := storeU32_spec bigEndian m (out256 + 4 * mem[data + i])
      (occurrences mem data i (mem[data + i]) + 1) (by omega) (by omega)
    obtain ⟨m1, h1, h2, h3, h4⟩ := ih (i + 1) m0 (by omega) (by omega)
      (fun k hk => by
        rw [s5 (data + k) (by have := hdis k hk; omega)]
        exact hd k hk)
      (fun v hv => by
        rw [occurrences_succ mem data i v hlt]
        by_cases hvd : mem[data + i] = v
        · rw [← hvd, s3]
          simp
        · rw [loadU32_congr bigEndian m0 m (out256 + 4 * v)
            (fun q hq1 hq2 => s5 q (by omega)), h v hv]
          simp [hvd])
    refine ⟨m1, ?_, by omega, ?_, ?_⟩
    · simp only [histogram_u8_count, hrd, h _ hdv, hmod, s1]
      exact h1
    · intro v hv
      rw [h3 v hv, show i + 1 + cnt = i + (cnt + 1) by omega]
    · intro q hq
      rw [h4 q hq, s5 q (by omega)]

/-- A memory of 1024 bytes that are all 0 after the zeroing loop. -/
theorem histogram_u8_zero_all (bigEndian : Bool) (mem : Mem) (h : mem.length = 1024) :
    histogram_u8_zero bigEndian 0 256 0 mem = some (List.replicate 1024 0) := by
  obtain ⟨z, z1, z2, z3, _⟩ := histogram_u8_zero_spec bigEndian 0 256 0 mem (by omega)
  rw [z1]
  congr 1
  apply List.ext_getElem?
  intro q
  by_cases hq : q < 1024
  · have := z3 q (by omega) (by omega)
    simp only [load] at this
    rw [this, List.getElem?_replicate, if_pos hq]
  · rw [List.getElem?_eq_none (by omega),
      List.getElem?_eq_none (by rw [List.length_replicate]; omega)]

/-- One iteration of the counting loop in the call `histogram_u8(data, n, out256)`
with `data` equal to `out256` (address 0, little-endian): the byte read is 0,
bucket 0 holds `c` in its lowest byte, and the iteration leaves `c + 1` there. -/
theorem histogram_u8_count_aliased_step (m : Mem) (i c : Nat) (hlen : m.length = 1024)
    (h0 : load m 0 = some c) (hrest : ∀ q, 1 ≤ q → q < 1024 → load m q = some 0)
    (hc : c < 255) (hd : load m (0 + i) = some 0) :
    ∃ m1, (∀ cnt, histogram_u8_count false 0 0 (cnt + 1) i m =
        histogram_u8_count false 0 0 cnt (i + 1) m1) ∧
      m1.length = 1024 ∧ load m1 0 = some (c + 1) ∧
      (∀ q, 1 ≤ q → q < 1024 → load m1 q = some 0) := by
  have hrd : loadU32 false m (0 + 4 * 0) = some c := by
    unfold loadU32
    rw [show 0 + 4 * 0 = 0 from rfl, h0, hrest (0 + 1) (by omega) (by omega),
      hrest (0 + 2) (by omega) (by omega), hrest (0 + 3) (by omega) (by omega)]
    simp
  have hmod : (c + 1) % U32 = c + 1 := by
    apply Nat.mod_eq_of_lt; unfold U32; omega
  have hst : storeU32 false m (0 + 4 * 0) (c + 1) =
      some ((((m.set 0 ((c + 1) % 256)).set (0 + 1) ((c + 1) / 256 % 256)).set (0 + 2)
        ((c + 1) / 65536 % 256)).set (0 + 3) ((c + 1) / 16777216 % 256)) := by
    unfold storeU32
    rw [show 0 + 4 * 0 = 0 from rfl, if_pos (by omega)]
    rfl
  refine ⟨(((m.set 0 ((c + 1) % 256)).set (0 + 1) ((c + 1) / 256 % 256)).set (0 + 2)
        ((c + 1) / 65536 % 256)).set (0 + 3) ((c + 1) / 16777216 % 256), fun cnt => ?_,
    by simp only [List.length_set]; exact hlen, ?_, ?_⟩
  · simp only [histogram_u8_count, hd, hrd, hmod, hst]
  · rw [load_set_ne _ _ _ _ (by omega), load_set_ne _ _ _ _ (by omega),
      load_set_ne _ _ _ _ (by omega), load_set_eq _ _ _ (by omega)]
    congr 1
    omega
  · intro q hq1 hq2
    by_cases e3 : q = 0 + 3
    · subst e3
      rw [load_set_eq _ _ _ (by simp; omega)]
      congr 1; omega
    rw [load_set_ne _ _ _ _ (by omega)]
    by_cases e2 : q = 0 + 2
    · subst e2
      rw [load_set_eq _ _ _ (by simp; omega)]
      congr 1; omega
    rw [load_set_ne _ _ _ _ (by omega)]
    by_cases e1 : q = 0 + 1
    · subst e1
      rw [load_set_eq _ _ _ (by simp; omega)]
      congr 1; omega
    rw [load_set_ne _ _ _ _ (by omega), load_set_ne _ _ _ _ (by omega)]
    exact hrest q hq1 hq2

/-- The call `histogram_u8(data, 4, out256)` with `data` equal to `out256`
(address 0 of a 1024-byte memory, little-endian): whatever the memory holds,
bucket 0 ends at 4 and bucket 1 at 0. -/
theorem histogram_u8_aliased_four (mem : Mem) (hlen : mem.length = 1024) :
    ∃ m4, histogram_u8 false mem 0 4 0 = some m4 ∧
      loadU32 false m4 (0 + 4 * 0) = some 4 ∧ loadU32 false m4 (0 + 4 * 1) = some 0 := by
  have hz := histogram_u8_zero_all false mem hlen
  generalize hzm : List.replicate 1024 0 = z at hz
  have zl : z.length = 1024 := by rw [← hzm, List.length_replicate]
  have z0 : ∀ q, q < 1024 → load z q = some 0 := by
    intro q hq
    rw [← hzm]
    unfold load
    rw [List.getElem?_replicate, if_pos hq]
  obtain ⟨m1, s1, l1, a1, r1⟩ := histogram_u8_count_aliased_step z 0 0
    zl (z0 0 (by omega)) (fun q _ hq => z0 q hq) (by omega) (z0 _ (by omega))
  obtain ⟨m2, s2, l2, a2, r2⟩ := histogram_u8_count_aliased_step m1 1 1 l1 a1 r1 (by omega)
    (r1 _ (by omega) (by omega))
  obtain ⟨m3, s3, l3, a3, r3⟩ := histogram_u8_count_aliased_step m2 2 2 l2 a2 r2 (by omega)
    (r2 _ (by omega) (by omega))
  obtain ⟨m4, s4, l4, a4, r4⟩ := histogram_u8_count_aliased_step m3 3 3 l3 a3 r3 (by omega)
    (r3 _ (by omega) (by omega))
  have e4 : (4 : Int).toNat = 3 + 1 := rfl
  refine ⟨m4, ?_, ?_, ?_⟩
  · have hrun : histogram_u8_count false 0 0 (3 + 1) 0 z = some m4 :=
      (s1 3).trans ((s2 2).trans ((s3 1).trans (s4 0)))
    unfold histogram_u8
    rw [hz, e4]
    exact hrun
  · unfold loadU32
    rw [show 0 + 4 * 0 = 0 from rfl, a4, r4 (0 + 1) (by omega) (by omega),
      r4 (0 + 2) (by omega) (by omega), r4 (0 + 3) (by omega) (by omega)]
    rfl
  · exact loadU32_zero false m4 _ (fun q h1 h2 => r4 q (by omega) (by omega))

/-! ## Claims -/

/-- C1: `crc32_u8` applied to the nine ASCII bytes of "123456789" (0x31..0x39)
with `n = 9` returns exactly `0xCBF43926`, wherever in memory the nine bytes
are. -/
theorem crc32_u8_check_value (mem : Mem) (data : Nat)
    (h : ∀ k, k < 9 → load mem (data + k) =
      load [0x31, 0x32, 0x33, 0x34, 0x35, 0x36, 0x37, 0x38, 0x39] k) :
    crc32_u8 mem data 9 = some 0xCBF43926 := by
  have e : crc32_u8 mem data 9 =
      crc32_u8 [0x31, 0x32, 0x33, 0x34, 0x35, 0x36, 0x37, 0x38, 0x39] 0 9 := by
    unfold crc32_u8
    rw [crc32_u8_loop_congr mem [0x31, 0x32, 0x33, 0x34, 0x35, 0x36, 0x37, 0x38, 0x39] data 0]
    intro k hk
    have hk9 : k < 9 := hk
    simpa using h k hk9
  rw [e]
  set_option maxRecDepth 100000 in decide

/-- Witness for C1: the nine bytes stored at address 2 of a 12-byte memory. -/
theorem crc32_u8_check_value_witness :
    crc32_u8 [0, 0, 0x31, 0x32, 0x33, 0x34, 0x35, 0x36, 0x37, 0x38, 0x39, 0] 2 9
      = some 0xCBF43926 :=
  crc32_u8_check_value [0, 0, 0x31, 0x32, 0x33, 0x34, 0x35, 0x36, 0x37, 0x38, 0x39, 0] 2
    (by decide)

/-- C2: for every memory and every `data` pointer, `crc32_u8(data, n)` with
`n <= 0` (zero-length input) returns `0x00000000`; no byte is read: the call is
defined and has the same result in every memory, also in the empty memory, where
every read is undefined. -/
theorem crc32_u8_zero_length (mem : Mem) (data : Nat) (n : Int) (hn : n ≤ 0) :
    crc32_u8 mem data n = some 0 ∧ crc32_u8 [] data n = some 0 ∧
      ∀ mem1 : Mem, crc32_u8 mem1 data n = crc32_u8 mem data n := by
  have h0 : n.toNat = 0 := by omega
  have key : ∀ m : Mem, crc32_u8 m data n = some 0 := by
    intro m
    simp [crc32_u8, h0, crc32_u8_loop]
  exact ⟨key mem, key [], fun m => by rw [key m, key mem]⟩

/-- Witness for C2: `n = 0` and `n = -3` on a pointer into a two-byte memory. -/
theorem crc32_u8_zero_length_witness :
    crc32_u8 [7, 9] 1 0 = some 0 ∧ crc32_u8 [7, 9] 5 (-3) = some 0 :=
  ⟨(crc32_u8_zero_length [7, 9] 1 0 (by decide)).1,
   (crc32_u8_zero_length [7, 9] 5 (-3) (by decide)).1⟩

/-- C3: for every `n` with `0 <= n`, `n` bytes available at `out` and
`255 * n <= 2^31 - 1`, and every `int value`, `fill_u8(out, n, value)` followed by
`sum_u8(out, n)` returns `n * (value mod 256)`, the remainder taken in 0..255
also for a negative `value`; `fill_u8(out, 4, 5)` then `sum_u8(out, 4)` yields
20.  This holds whether `char` is signed or unsigned. -/
theorem fill_u8_then_sum_u8 (signedChar : Bool) (mem : Mem) (out : Nat) (n value : Int)
    (h0 : 0 ≤ n) (hlen : out + n.toNat ≤ mem.length) (hmax : 255 * n ≤ INT_MAX) :
    ∃ mem1, fill_u8 signedChar mem out n value = some mem1 ∧
      sum_u8 signedChar mem1 out n = some (n * (value % 256)) ∧
      0 ≤ value % 256 ∧ value % 256 ≤ 255 ∧
      (n = 4 → value = 5 → sum_u8 signedChar mem1 out 4 = some 20) := by
  obtain ⟨mem1, h1, _, h3, _⟩ :=
    fill_u8_loop_spec signedChar out value n.toNat 0 mem (by omega)
  have hv : (value % 256).toNat < 256 := by omega
  have hn : ((n.toNat : Nat) : Int) = n := Int.toNat_of_nonneg h0
  have hvi : (((value % 256).toNat : Nat) : Int) = value % 256 :=
    Int.toNat_of_nonneg (by omega)
  have hsum : sum_u8 signedChar mem1 out n = some (n * (value % 256)) := by
    unfold sum_u8
    rw [sum_u8_loop_const signedChar mem1 out (value % 256).toNat hv n.toNat 0 0
      (fun k hk => by
        have := h3 (out + (0 + k)) (by omega) (by omega)
        exact this)
      (le_refl 0)
      (by
        rw [hn, hvi, Int.zero_add]
        have h255 : value % 256 ≤ 255 := by omega
        calc n * (value % 256) ≤ n * 255 := Int.mul_le_mul_of_nonneg_left h255 h0
          _ = 255 * n := Int.mul_comm _ _
          _ ≤ INT_MAX := hmax)]
    rw [hn, hvi, Int.zero_add]
  refine ⟨mem1, h1, hsum, by omega, by omega, ?_⟩
  intro h4 h5
  subst h4; subst h5
  rw [hsum]; rfl

/-- Witness for C3: `fill_u8(out, 4, 5)` then `sum_u8(out, 4)` on a signed-`char`
platform, `out` at address 1 of a six-byte memory. -/
theorem fill_u8_then_sum_u8_witness :
    ∃ mem1, fill_u8 true [9, 9, 9, 9, 9, 9] 1 4 5 = some mem1 ∧
      sum_u8 true mem1 1 4 = some (4 * (5 % 256)) ∧
      (0 : Int) ≤ 5 % 256 ∧ (5 : Int) % 256 ≤ 255 ∧
      ((4 : Int) = 4 → (5 : Int) = 5 → sum_u8 true mem1 1 4 = some 20) :=
  fill_u8_then_sum_u8 true [9, 9, 9, 9, 9, 9] 1 4 5 (by decide) (by decide) (by decide)

/-- C4: for every data buffer and every prior content of the 256-entry output
buffer, `histogram_u8(data, n, out256)` with `n = 0` (and with any `n <= 0`)
leaves all 256 buckets equal to 0: every bucket reads 0, every byte of `out256`
is 0, and no byte outside `out256` changes.  No byte of `data` is read, so `data`
may be any pointer, also one into `out256`. -/
theorem histogram_u8_zero_length (bigEndian : Bool) (mem : Mem) (data : Nat) (n : Int)
    (out256 : Nat) (hn : n ≤ 0) (hout : out256 + 1024 ≤ mem.length) :
    ∃ m1, histogram_u8 bigEndian mem data n out256 = some m1 ∧ m1.length = mem.length ∧
      (∀ v, v < 256 → loadU32 bigEndian m1 (out256 + 4 * v) = some 0) ∧
      (∀ q, out256 ≤ q → q < out256 + 1024 → load m1 q = some 0) ∧
      (∀ q, (q < out256 ∨ out256 + 1024 ≤ q) → load m1 q = load mem q) := by
  obtain ⟨z, z1, z2, z3, z4⟩ := histogram_u8_zero_spec bigEndian out256 256 0 mem (by omega)
  have h0 : n.toNat = 0 := by omega
  refine ⟨z, ?_, z2, ?_, fun q h1 h2 => z3 q (by omega) (by omega),
    fun q hq => z4 q (by omega)⟩
  · simp [histogram_u8, z1, h0, histogram_u8_count]
  · intro v hv
    exact loadU32_zero bigEndian z _ (fun q h1 h2 => z3 q (by omega) (by omega))

/-- Witness for C4: a call with `n = 0` and `data` equal to `out256`, on 1024
bytes that all hold 7 before the call. -/
theorem histogram_u8_zero_length_witness :
    ∃ m1, histogram_u8 false (List.replicate 1024 7) 0 0 0 = some m1 ∧
      m1.length = (List.replicate 1024 7).length ∧
      (∀ v, v < 256 → loadU32 false m1 (0 + 4 * v) = some 0) ∧
      (∀ q, 0 ≤ q → q < 0 + 1024 → load m1 q = some 0) ∧
      (∀ q, (q < 0 ∨ 0 + 1024 ≤ q) → load m1 q = load (List.replicate 1024 7) q) :=
  histogram_u8_zero_length false (List.replicate 1024 7) 0 0 0 (by decide)
    (by rw [List.length_replicate])

/-- C5, as stated, fails when `data` points into `out256`: on a little-endian
platform, with `data` and `out256` both at address 0 of a 1024-byte memory whose
first bytes are 1, 1, 2, 3 and `n = 4`, the zeroing loop wipes the four data
bytes before they are read, every iteration then reads 0 and increments bucket 0:
the call leaves 4 in bucket 0 and 0 in bucket 1, while two of the four original
data bytes are 1. -/
theorem histogram_u8_alias_counterexample :
    (0 : Int) ≤ 4 ∧ (4 : Int) ≤ INT_MAX ∧
      Bytes ([1, 1, 2, 3] ++ List.replicate 1020 0) ∧
      0 + (4 : Int).toNat ≤ ([1, 1, 2, 3] ++ List.replicate 1020 0).length ∧
      0 + 1024 ≤ ([1, 1, 2, 3] ++ List.replicate 1020 0).length ∧
      occurrences ([1, 1, 2, 3] ++ List.replicate 1020 0) 0 (4 : Int).toNat 1 = 2 ∧
      ∃ m1, histogram_u8 false ([1, 1, 2, 3] ++ List.replicate 1020 0) 0 4 0 = some m1 ∧
        loadU32 false m1 (0 + 4 * 0) = some 4 ∧
        loadU32 false m1 (0 + 4 * 1) = some 0 ∧
        loadU32 false m1 (0 + 4 * 1) ≠
          some (occurrences ([1, 1, 2, 3] ++ List.replicate 1020 0) 0 (4 : Int).toNat 1) := by
  have hlen : ([1, 1, 2, 3] ++ List.replicate 1020 0).length = 1024 := by
    simp only [List.length_append, List.length_cons, List.length_nil, List.length_replicate]
  have hocc : occurrences ([1, 1, 2, 3] ++ List.replicate 1020 0) 0 (4 : Int).toNat 1 = 2 := by
    decide
  have hbytes : Bytes ([1, 1, 2, 3] ++ List.replicate 1020 0) := by
    intro x hx
    rw [List.mem_append] at hx
    rcases hx with hx | hx
    · simp only [List.mem_cons, List.mem_singleton, List.not_mem_nil, or_false] at hx
      omega
    · rw [List.mem_replicate] at hx
      omega
  refine ⟨by decide, by decide, hbytes, by rw [hlen]; decide, by rw [hlen], hocc, ?_⟩
  obtain ⟨m4, hrun, b0, b1⟩ := histogram_u8_aliased_four _ hlen
  refine ⟨m4, hrun, b0, b1, ?_⟩
  rw [b1, hocc]
  decide

/-- C5, amended: for every `n >= 0` (an `int`), every data buffer of at least `n`
bytes none of which lies in the 1024 bytes of `out256`, and every prior content
of the 256 buckets, after `histogram_u8(data, n, out256)` each bucket
`out256[v]`, `v` in 0..255, holds the number of indices `i < n` with
`data[i] = v`; no byte outside `out256` changes, and the buckets do not depend on
what `out256` held before the call. -/
theorem histogram_u8_counts (bigEndian : Bool) (mem : Mem) (data : Nat) (n : Int)
    (out256 : Nat) (h0 : 0 ≤ n) (hmax : n ≤ INT_MAX) (hb : Bytes mem)
    (hlen : data + n.toNat ≤ mem.length) (hout : out256 + 1024 ≤ mem.length)
    (hdis : ∀ k, k < n.toNat → data + k < out256 ∨ out256 + 1024 ≤ data + k) :
    ∃ m1, histogram_u8 bigEndian mem data n out256 = some m1 ∧ m1.length = mem.length ∧
      (∀ v, v < 256 →
        loadU32 bigEndian m1 (out256 + 4 * v) = some (occurrences mem data n.toNat v)) ∧
      (∀ q, (q < out256 ∨ out256 + 1024 ≤ q) → load m1 q = load mem q) ∧
      (∀ prior : Mem, prior.length = mem.length →
        (∀ q, (q < out256 ∨ out256 + 1024 ≤ q) → load prior q = load mem q) →
        ∃ m2, histogram_u8 bigEndian prior data n out256 = some m2 ∧
          ∀ v, v < 256 →
            loadU32 bigEndian m2 (out256 + 4 * v) = loadU32 bigEndian m1 (out256 + 4 * v)) := by
  have hU : n.toNat < U32 := by
    have : n < 4294967296 := by unfold INT_MAX at hmax; omega
    unfold U32; omega
  have key : ∀ start : Mem, start.length = mem.length →
      (∀ q, (q < out256 ∨ out256 + 1024 ≤ q) → load start q = load mem q) →
      ∃ m1, histogram_u8 bigEndian start data n out256 = some m1 ∧
        m1.length = mem.length ∧
        (∀ v, v < 256 →
          loadU32 bigEndian m1 (out256 + 4 * v) = some (occurrences mem data n.toNat v)) ∧
        (∀ q, (q < out256 ∨ out256 + 1024 ≤ q) → load m1 q = load mem q) := by
    intro start hsl hsame
    obtain ⟨z, z1, z2, z3, z4⟩ :=
      histogram_u8_zero_spec bigEndian out256 256 0 start (by omega)
    obtain ⟨m1, c1, c2, c3, c4⟩ := histogram_u8_count_spec bigEndian mem data out256 n.toNat
      hb hlen hU hdis n.toNat 0 z (by omega) (by omega)
      (fun k hk => by
        have := hdis k hk
        rw [z4 (data + k) (by omega), hsame (data + k) (by omega)])
      (fun v hv => by
        rw [occurrences_zero]
        exact loadU32_zero bigEndian z _ (fun q h1 h2 => z3 q (by omega) (by omega)))
    refine ⟨m1, ?_, by omega, ?_, ?_⟩
    · simp only [histogram_u8, z1]
      exact c1
    · intro v hv
      have := c3 v hv
      rwa [Nat.zero_add] at this
    · intro q hq
      rw [c4 q hq, z4 q (by omega), hsame q hq]
  obtain ⟨m1, k1, k2, k3, k4⟩ := key mem rfl (fun q _ => rfl)
  refine ⟨m1, k1, k2, k3, k4, ?_⟩
  intro prior hpl hsame
  obtain ⟨m2, p1, _, p3, _⟩ := key prior hpl hsame
  exact ⟨m2, p1, fun v hv => by rw [p3 v hv, k3 v hv]⟩

/-- Witness for C5 amended: four data bytes at address 0, `out256` at address 6
with every byte holding 7 before the call, on a big-endian platform. -/
theorem histogram_u8_counts_witness :
    ∃ m1, histogram_u8 true ([9, 1, 2, 1, 3, 1] ++ List.replicate 1024 7) 0 4 6 = some m1 ∧
      m1.length = ([9, 1, 2, 1, 3, 1] ++ List.replicate 1024 7).length ∧
      (∀ v, v < 256 → loadU32 true m1 (6 + 4 * v) =
        some (occurrences ([9, 1, 2, 1, 3, 1] ++ List.replicate 1024 7) 0 (4 : Int).toNat v)) ∧
      (∀ q, (q < 6 ∨ 6 + 1024 ≤ q) →
        load m1 q = load ([9, 1, 2, 1, 3, 1] ++ List.replicate 1024 7) q) ∧
      (∀ prior : Mem, prior.length = ([9, 1, 2, 1, 3, 1] ++ List.replicate 1024 7).length →
        (∀ q, (q < 6 ∨ 6 + 1024 ≤ q) →
          load prior q = load ([9, 1, 2, 1, 3, 1] ++ List.replicate 1024 7) q) →
        ∃ m2, histogram_u8 true prior 0 4 6 = some m2 ∧
          ∀ v, v < 256 → loadU32 true m2 (6 + 4 * v) = loadU32 true m1 (6 + 4 * v)) :=
  histogram_u8_counts true ([9, 1, 2, 1, 3, 1] ++ List.replicate 1024 7) 0 4 6
    (by decide) (by decide)
    (by
      intro x hx
      rw [List.mem_append] at hx
      rcases hx with hx | hx
      · simp only [List.mem_cons, List.mem_singleton, List.not_mem_nil, or_false] at hx
        omega
      · rw [List.mem_replicate] at hx
        omega)
    (by
      simp only [List.length_append, List.length_cons, List.length_nil, List.length_replicate]
      decide)
    (by
      simp only [List.length_append, List.length_cons, List.length_nil, List.length_replicate]
      decide)
    (by
      intro k hk
      have hk4 : k < 4 := hk
      omega)

/-- C6: each of the three native tests of `add_test.c` (`test_add_basic`,
`test_add_negative`, `test_add_failure_example`) returns the null text pointer,
which the test convention decodes as `Pass`; `test_add_basic` asserts
`add(2, 3) == 5`, and `add(2, 3)` is 5. -/
theorem add_tests_pass :
    test_add_basic = none ∧ test_add_negative = none ∧ test_add_failure_example = none ∧
      decodeText test_add_basic = Outcome.Pass ∧
      decodeText test_add_negative = Outcome.Pass ∧
      decodeText test_add_failure_example = Outcome.Pass ∧
      test_add_basic = assertTest (cEq (add 2 3) 5) "add(2, 3) == 5" ∧ add 2 3 = 5 := by
  decide

/-- C7: a test function whose body is `RN_ASSERT(expr); return 0;` returns a
non-null message if and only if `expr` is false, and the message is then exactly
"ASSERT(" followed by the text of `expr` followed by ")"; a test asserting
`add(2, 3) == 6` returns "ASSERT(add(2, 3) == 6)". -/
theorem RN_ASSERT_message (expr : Int) (exprText : String) :
    (assertTest expr exprText ≠ none ↔ expr = 0) ∧
      (expr = 0 → assertTest expr exprText = some ("ASSERT(" ++ exprText ++ ")")) ∧
      (expr ≠ 0 → assertTest expr exprText = none) ∧
      assertTest (cEq (add 2 3) 6) "add(2, 3) == 6" = some "ASSERT(add(2, 3) == 6)" := by
  refine ⟨?_, ?_, ?_, by decide⟩
  · by_cases h : expr = 0 <;> simp [assertTest, RN_ASSERT, h]
  · intro h; simp [assertTest, RN_ASSERT, h]
  · intro h; simp [assertTest, RN_ASSERT, h]

/-- Witness for C7: a false condition (`2 == 3`) and a true one (`2 == 2`). -/
theorem RN_ASSERT_message_witness :
    assertTest (cEq 2 3) "2 == 3" = some ("ASSERT(" ++ "2 == 3" ++ ")") ∧
      assertTest (cEq 2 2) "2 == 2" = none :=
  ⟨(RN_ASSERT_message (cEq 2 3) "2 == 3").2.1 (by decide),
   (RN_ASSERT_message (cEq 2 2) "2 == 2").2.2.1 (by decide)⟩

/-- C8: a test function whose body is `RN_ASSERT_MSG(expr, msg); return 0;`
returns `msg` unchanged when `expr` is false and the null pointer (pass) when
`expr` is true; no other result is possible. -/
theorem RN_ASSERT_MSG_result (expr : Int) (msg : Option String) :
    (expr = 0 → assertMsgTest expr msg = msg) ∧
      (expr ≠ 0 → assertMsgTest expr msg = none) ∧
      (assertMsgTest expr msg = msg ∨ assertMsgTest expr msg = none) := by
  by_cases h : expr = 0 <;> simp [assertMsgTest, RN_ASSERT_MSG, h]

/-- Witness for C8: a false condition (`1 == 2`) and the true condition of
`test_add_failure_example` (`1 == 1`). -/
theorem RN_ASSERT_MSG_result_witness :
    assertMsgTest (cEq 1 2) (some "should not fail") = some "should not fail" ∧
      assertMsgTest (cEq 1 1) (some "should not fail") = none :=
  ⟨(RN_ASSERT_MSG_result (cEq 1 2) (some "should not fail")).1 (by decide),
   (RN_ASSERT_MSG_result (cEq 1 1) (some "should not fail")).2.1 (by decide)⟩

/-- C9, as stated, fails when `out` overlaps a part of `a` that is read later:
on the five bytes 1, 2, 4, 0, 0 with `a` at address 0, `b` at address 3, `out` at
address 1 and `n = 2`, all three buffers have two bytes, the call stores 1 in
`out[1]`, while the original `a[1] ^ b[1]` is `2 ^ 0 = 2`. -/
theorem xor_u8_overlap_counterexample :
    Bytes [1, 2, 4, 0, 0] ∧ (0 : Int) ≤ 2 ∧
      0 + (2 : Int).toNat ≤ [1, 2, 4, 0, 0].length ∧
      3 + (2 : Int).toNat ≤ [1, 2, 4, 0, 0].length ∧
      1 + (2 : Int).toNat ≤ [1, 2, 4, 0, 0].length ∧
      xor_u8 [1, 2, 4, 0, 0] 0 3 1 2 = some [1, 1, 1, 0, 0] ∧
      ¬ (∀ k, k < (2 : Int).toNat → ∃ x y, load [1, 2, 4, 0, 0] (0 + k) = some x ∧
          load [1, 2, 4, 0, 0] (3 + k) = some y ∧
          load [1, 1, 1, 0, 0] (1 + k) = some (x ^^^ y)) := by
  refine ⟨by decide, by decide, by decide, by decide, by decide, by decide, ?_⟩
  intro h
  obtain ⟨x, y, hx, hy, hxy⟩ := h 1 (by decide)
  simp [load] at hx hy hxy
  subst hx; subst hy
  exact absurd hxy (by decide)

/-- C9, amended: for every `n >= 0` and buffers `a`, `b`, `out` of at least `n`
bytes such that no byte `out[k]` is a byte `a[j]` or `b[j]` with `k < j < n` (so
`out` apart from `a` and `b`, or `out` equal to `a` or to `b`), after
`xor_u8(a, b, out, n)` every `out[i]` with `i < n` is the bitwise XOR of the
original `a[i]` and `b[i]`, and every byte outside `out[0 .. n-1]` is unchanged;
with `n <= 0` the call changes nothing. -/
theorem xor_u8_spec (mem : Mem) (a b out : Nat) (n : Int) :
    (n ≤ 0 → xor_u8 mem a b out n = some mem) ∧
    (0 ≤ n → Bytes mem → a + n.toNat ≤ mem.length → b + n.toNat ≤ mem.length →
      out + n.toNat ≤ mem.length →
      (∀ k j, k < j → j < n.toNat → out + k ≠ a + j ∧ out + k ≠ b + j) →
      ∃ mem1, xor_u8 mem a b out n = some mem1 ∧ mem1.length = mem.length ∧
        (∀ i, i < n.toNat → ∃ x y, load mem (a + i) = some x ∧ load mem (b + i) = some y ∧
          load mem1 (out + i) = some (x ^^^ y)) ∧
        (∀ p, (p < out ∨ out + n.toNat ≤ p) → load mem1 p = load mem p)) := by
  constructor
  · intro hn
    have h0 : n.toNat = 0 := by omega
    simp [xor_u8, h0, xor_u8_loop]
  · intro _ hb ha hbb ho hnc
    obtain ⟨mem1, h1, h2, h3, h4⟩ := xor_u8_loop_spec mem a b out hb n.toNat 0 mem rfl
      (by omega) (by omega) (by omega)
      (fun k j hkj hj => hnc k j hkj (by omega))
      (fun p _ => rfl)
      (fun k hk => absurd hk (Nat.not_lt_zero k))
    exact ⟨mem1, h1, h2, fun i hi => h4 i (by omega), fun p hp => h3 p (by omega)⟩

/-- Witness for C9 amended: an in-place call (`out` equal to `a`) on two bytes, `b`
two bytes further, and a call with `n = -1`. -/
theorem xor_u8_spec_witness :
    xor_u8 [1, 2, 4, 8, 0] 0 2 0 (-1) = some [1, 2, 4, 8, 0] ∧
      ∃ mem1, xor_u8 [1, 2, 4, 8, 0] 0 2 0 2 = some mem1 ∧
        mem1.length = [1, 2, 4, 8, 0].length ∧
        (∀ i, i < (2 : Int).toNat → ∃ x y, load [1, 2, 4, 8, 0] (0 + i) = some x ∧
          load [1, 2, 4, 8, 0] (2 + i) = some y ∧ load mem1 (0 + i) = some (x ^^^ y)) ∧
        (∀ p, (p < 0 ∨ 0 + (2 : Int).toNat ≤ p) → load mem1 p = load [1, 2, 4, 8, 0] p) :=
  ⟨(xor_u8_spec [1, 2, 4, 8, 0] 0 2 0 (-1)).1 (by decide),
   (xor_u8_spec [1, 2, 4, 8, 0] 0 2 0 2).2 (by decide) (by decide) (by decide) (by decide)
     (by decide) (by
       intro k j hkj hj
       have hj2 : j < 2 := hj
       omega)⟩

/-- C10: for every buffer `buf` of at least `n` bytes with `0 <= n` and
`255 * n <= 2^31 - 1`, `sum_u8(buf, n)` returns the sum of the first `n` bytes,
each read as its unsigned value 0..255 also where `char` is signed, so the result
lies in `[0, 255 * n]`; for `n <= 0` it returns 0. -/
theorem sum_u8_spec (signedChar : Bool) (mem : Mem) (buf : Nat) (n : Int) :
    (0 ≤ n → Bytes mem → buf + n.toNat ≤ mem.length → 255 * n ≤ INT_MAX →
      ∃ t : Nat, sum_u8 signedChar mem buf n = some (t : Int) ∧
        t = ((mem.drop buf).take n.toNat).sum ∧
        (0 : Int) ≤ (t : Int) ∧ (t : Int) ≤ 255 * n) ∧
    (n ≤ 0 → sum_u8 signedChar mem buf n = some 0) := by
  constructor
  · intro h0 hb hlen hmax
    have hn : ((n.toNat : Nat) : Int) = n := Int.toNat_of_nonneg h0
    obtain ⟨t, h1, h2, h3⟩ := sum_u8_loop_spec signedChar mem buf hb n.toNat 0 0
      (by omega) (le_refl 0) (by rw [hn]; omega)
    refine ⟨t, ?_, ?_, by omega, by omega⟩
    · unfold sum_u8; rw [h1, Int.zero_add]
    · simpa using h2
  · intro hn
    have h0 : n.toNat = 0 := by omega
    simp [sum_u8, h0, sum_u8_loop]

/-- Witness for C10: three bytes at address 1, two of them above 127, summed on
a signed-`char` platform, and a call with `n = -1`. -/
theorem sum_u8_spec_witness :
    (∃ t : Nat, sum_u8 true [1, 200, 255, 3, 77] 1 3 = some (t : Int) ∧
        t = (([1, 200, 255, 3, 77].drop 1).take (3 : Int).toNat).sum ∧
        (0 : Int) ≤ (t : Int) ∧ (t : Int) ≤ 255 * 3) ∧
      sum_u8 true [1, 200, 255, 3, 77] 1 (-1) = some 0 :=
  ⟨(sum_u8_spec true [1, 200, 255, 3, 77] 1 3).1 (by decide) (by decide) (by decide) (by decide),
   (sum_u8_spec true [1, 200, 255, 3, 77] 1 (-1)).2 (by decide)⟩

/-- C11, as stated, fails when an index expression leaves the range of `int`:
with `M = 1`, `K = 3`, `N = 2^30`, `A` (3 cells) at address 0, `B` (`3 * 2^30`
cells) at address 3 and `C` (`2^30` cells) behind them in a memory of ones, all
dimensions are non-negative, the three buffers lie in the memory and `C` overlaps
neither `A` nor `B`, yet for `i = 0`, `j = 0`, `k = 2` the index `k * N + j` is
`2^31`, a signed overflow: the call has undefined behaviour and no entry of `C`
is guaranteed. -/
theorem matmul_f32_overflow_counterexample :
    (0 : Int) ≤ 1 ∧ (0 : Int) ≤ 3 ∧ (0 : Int) ≤ 1073741824 ∧
      (List.replicate 4294967299 (1 : Int)).length = 4294967299 ∧
      0 + 1 * 3 ≤ 4294967299 ∧ 3 + 3 * 1073741824 ≤ 4294967299 ∧
      3221225475 + 1 * 1073741824 ≤ 4294967299 ∧
      0 + 1 * 3 ≤ 3221225475 ∧ 3 + 3 * 1073741824 ≤ 3221225475 ∧
      intMulAdd 2 1073741824 0 = none ∧
      matmul_f32 exactOps (List.replicate 4294967299 (1 : Int)) 0 3 3221225475
        1 3 1073741824 = none := by
  refine ⟨by decide, by decide, by decide, List.length_replicate _ _, by decide, by decide,
    by decide, by decide, by decide, by decide, ?_⟩
  have hl : ∀ p, p < 4294967299 → loadF (List.replicate 4294967299 (1 : Int)) p = some 1 :=
    fun p hp => loadF_replicate 1 4294967299 p hp
  have e00 : intMulAdd 0 3 0 = some 0 := by decide
  have e01 : intMulAdd 0 3 1 = some 1 := by decide
  have e02 : intMulAdd 0 3 2 = some 2 := by decide
  have b0 : intMulAdd 0 1073741824 0 = some 0 := by decide
  have b1 : intMulAdd 1 1073741824 0 = some 1073741824 := by decide
  have b2 : intMulAdd 2 1073741824 0 = none := by decide
  generalize List.replicate 4294967299 (1 : Int) = mem at hl
  have hk : matmul_f32_k exactOps mem 0 3 3 1073741824 0 0 3 0 exactOps.zero = none :=
    (matmul_f32_k_step exactOps mem 0 3 3 1073741824 0 0 2 0 0 0 exactOps.zero 1 1 e00 b0
      (hl _ (by decide)) (hl _ (by decide))).trans
    ((matmul_f32_k_step exactOps mem 0 3 3 1073741824 0 0 1 1 1 1073741824 _ 1 1 e01 b1
      (hl _ (by decide)) (hl _ (by decide))).trans
    (matmul_f32_k_overflow exactOps mem 0 3 3 1073741824 0 0 0 2 _ b2))
  have hj := matmul_f32_j_none_of_k exactOps 0 3 3221225475 3 1073741824 0 1073741823 0 mem hk
  exact matmul_f32_i_none_of_j exactOps 0 3 3221225475 3 1073741824 0 0 mem hj
/-- C11, amended: for every `M`, `K`, `N` whose products `M * K`, `K * N` and
`M * N` are at most `2^31` (every index expression is an `int`) and row-major
inputs `A` (`M x K`, entries `a`) and `B` (`K x N`, entries `b`), after
`matmul_f32(A, B, C, M, K, N)` with `C` overlapping neither `A` nor `B`, every
`C[i * N + j]` (`i < M`, `j < N`) is the sum, accumulated from `0.0f` in ascending
`k`, of `A[i * K + k] * B[k * N + j]` for `k < K`; with `K <= 0` every such entry
is `0.0f`; every cell outside the `M x N` block of `C` is unchanged.  This holds
for every floating-point arithmetic. -/
theorem matmul_f32_spec {F : Type} (ops : FloatOps F) (mem : List F) (A B C : Nat)
    (M K N : Int) (a b : Nat → F)
    (hA : ∀ q, q < M.toNat * K.toNat → loadF mem (A + q) = some (a q))
    (hB : ∀ q, q < K.toNat * N.toNat → loadF mem (B + q) = some (b q))
    (hC : C + M.toNat * N.toNat ≤ mem.length)
    (hdA : ∀ p q, p < M.toNat * N.toNat → q < M.toNat * K.toNat → C + p ≠ A + q)
    (hdB : ∀ p q, p < M.toNat * N.toNat → q < K.toNat * N.toNat → C + p ≠ B + q)
    (hIA : M.toNat * K.toNat ≤ 2147483648) (hIB : K.toNat * N.toNat ≤ 2147483648)
    (hIC : M.toNat * N.toNat ≤ 2147483648) :
    ∃ mem1, matmul_f32 ops mem A B C M K N = some mem1 ∧ mem1.length = mem.length ∧
      (∀ i j, i < M.toNat → j < N.toNat →
        loadF mem1 (C + (i * N.toNat + j)) = some (dotSpec ops a b K.toNat N.toNat i j)) ∧
      (K ≤ 0 → ∀ i j, i < M.toNat → j < N.toNat →
        loadF mem1 (C + (i * N.toNat + j)) = some ops.zero) ∧
      (∀ p, (p < C ∨ C + M.toNat * N.toNat ≤ p) → loadF mem1 p = loadF mem p) := by
  obtain ⟨mem1, h1, h2, h3, h4⟩ := matmul_f32_i_spec ops A B C M.toNat K.toNat N.toNat a b
    hIA hIB hIC hdA hdB M.toNat 0 mem (by omega) hC hA hB
  refine ⟨mem1, h1, h2, fun i j hi hj => h3 i j (by omega) (by omega) hj, ?_, ?_⟩
  · intro hK i j hi hj
    have hK0 : K.toNat = 0 := by omega
    rw [h3 i j (by omega) (by omega) hj, hK0]
    rfl
  · intro p hp
    apply h4 p
    rcases hp with hp | hp
    · left; omega
    · right; rw [Nat.zero_add]; exact hp

/-- Witness for C11 amended: a `2 x 3` matrix at address 0 times a `3 x 2` matrix
at address 6, into `C` at address 12 of a 17-cell memory, on small integers. -/
theorem matmul_f32_spec_witness :
    ∃ mem1, matmul_f32 exactOps [1, 2, 3, 4, 5, 6, 1, 0, 0, 1, 1, 1, 7, 7, 7, 7, 7] 0 6 12
        2 3 2 = some mem1 ∧
      mem1.length = [1, 2, 3, 4, 5, 6, 1, 0, 0, 1, 1, 1, 7, 7, 7, 7, (7 : Int)].length ∧
      (∀ i j, i < (2 : Int).toNat → j < (2 : Int).toNat →
        loadF mem1 (12 + (i * (2 : Int).toNat + j)) =
          some (dotSpec exactOps (fun q => [1, 2, 3, 4, 5, 6].getD q 0)
            (fun q => [1, 0, 0, 1, 1, 1].getD q 0) (3 : Int).toNat (2 : Int).toNat i j)) ∧
      ((3 : Int) ≤ 0 → ∀ i j, i < (2 : Int).toNat → j < (2 : Int).toNat →
        loadF mem1 (12 + (i * (2 : Int).toNat + j)) = some exactOps.zero) ∧
      (∀ p, (p < 12 ∨ 12 + (2 : Int).toNat * (2 : Int).toNat ≤ p) →
        loadF mem1 p = loadF [1, 2, 3, 4, 5, 6, 1, 0, 0, 1, 1, 1, 7, 7, 7, 7, 7] p) :=
  matmul_f32_spec exactOps [1, 2, 3, 4, 5, 6, 1, 0, 0, 1, 1, 1, 7, 7, 7, 7, 7] 0 6 12 2 3 2
    (fun q => [1, 2, 3, 4, 5, 6].getD q 0) (fun q => [1, 0, 0, 1, 1, 1].getD q 0)
    (by decide) (by decide) (by decide)
    (by intro p q hp hq
        have hp4 : p < 4 := hp
        have hq6 : q < 6 := hq
        omega)
    (by intro p q hp hq
        have hp4 : p < 4 := hp
        have hq6 : q < 6 := hq
        omega)
    (by decide) (by decide) (by decide)

/-- C12, as stated, fails when `out` is the buffer `a`: with `a = out` holding
the matrix 1, 1, 0, 1 and `b` holding 2, 1, 0, 1 (small integers, on which
`double` arithmetic is exact), `mul2(a, a, b)` leaves 2, 3, 0, 1 in `out`, while
the product of the matrices as they were before the call is 2, 2, 0, 1: the
statement for `out[1]` reads `a[0]` after `out[0]` has overwritten it. -/
theorem mul2_alias_counterexample :
    mul2 exactOps [1, 1, 0, 1, 2, 1, 0, 1] 0 0 4 = some [2, 3, 0, 1, 2, 1, 0, 1] ∧
      loadF [1, 1, 0, 1, 2, 1, 0, 1] (0 + 0) = some 1 ∧
      loadF [1, 1, 0, 1, 2, 1, 0, 1] (0 + 1) = some 1 ∧
      loadF [1, 1, 0, 1, 2, 1, 0, 1] (4 + 1) = some 1 ∧
      loadF [1, 1, 0, 1, 2, 1, 0, 1] (4 + 3) = some 1 ∧
      loadF [2, 3, 0, 1, 2, 1, 0, 1] (0 + 1) ≠
        some (exactOps.add (exactOps.mul 1 1) (exactOps.mul 1 1)) := by
  decide

/-- C12, amended: for every `a`, `b` and `out` (pointers to 4 doubles each) such
that no cell `out[k]` is a cell of `a` or `b` read by a later statement (the one
for `out[j]`, `k < j`, reads row `j / 2` of `a` and column `j % 2` of `b`), so in
particular whenever `out` overlaps neither `a` nor `b`, after `mul2(out, a, b)`
the buffer `out` holds the row-major 2x2 product of the matrices `a` and `b` as
they were before the call, and every cell outside `out[0 .. 3]` is unchanged. -/
theorem mul2_spec {F : Type} (ops : FloatOps F) (mem : List F) (out a b : Nat)
    (a0 a1 a2 a3 b0 b1 b2 b3 : F)
    (ha0 : loadF mem (a + 0) = some a0) (ha1 : loadF mem (a + 1) = some a1)
    (ha2 : loadF mem (a + 2) = some a2) (ha3 : loadF mem (a + 3) = some a3)
    (hb0 : loadF mem (b + 0) = some b0) (hb1 : loadF mem (b + 1) = some b1)
    (hb2 : loadF mem (b + 2) = some b2) (hb3 : loadF mem (b + 3) = some b3)
    (hout : out + 4 ≤ mem.length)
    (hnc : ∀ k j, k < j → j < 4 →
      out + k ≠ a + 2 * (j / 2) ∧ out + k ≠ a + 2 * (j / 2) + 1 ∧
      out + k ≠ b + j % 2 ∧ out + k ≠ b + j % 2 + 2) :
    ∃ mem1, mul2 ops mem out a b = some mem1 ∧ mem1.length = mem.length ∧
      loadF mem1 (out + 0) = some (ops.add (ops.mul a0 b0) (ops.mul a1 b2)) ∧
      loadF mem1 (out + 1) = some (ops.add (ops.mul a0 b1) (ops.mul a1 b3)) ∧
      loadF mem1 (out + 2) = some (ops.add (ops.mul a2 b0) (ops.mul a3 b2)) ∧
      loadF mem1 (out + 3) = some (ops.add (ops.mul a2 b1) (ops.mul a3 b3)) ∧
      (∀ p, (p < out ∨ out + 4 ≤ p) → loadF mem1 p = loadF mem p) := by
  have n01 := hnc 0 1 (by omega) (by omega)
  have n02 := hnc 0 2 (by omega) (by omega)
  have n03 := hnc 0 3 (by omega) (by omega)
  have n12 := hnc 1 2 (by omega) (by omega)
  have n13 := hnc 1 3 (by omega) (by omega)
  have n23 := hnc 2 3 (by omega) (by omega)
  -- statement 0
  have s0 := mul2_assign_eq ops mem out a b 0 0 0 1 2 a0 b0 a1 b2 ha0 hb0 ha1 hb2 (by omega)
  generalize hm1 : mem.set (out + 0) (ops.add (ops.mul a0 b0) (ops.mul a1 b2)) = m1 at s0
  have l1 : m1.length = mem.length := by rw [← hm1]; simp
  have r1 : ∀ q, out + 0 ≠ q → loadF m1 q = loadF mem q := fun q hq => by
    rw [← hm1]; exact loadF_set_ne mem _ _ _ hq
  have w1 : loadF m1 (out + 0) = some (ops.add (ops.mul a0 b0) (ops.mul a1 b2)) := by
    rw [← hm1]; exact loadF_set_eq mem _ _ (by omega)
  -- statement 1
  have s1 := mul2_assign_eq ops m1 out a b 1 0 1 1 3 a0 b1 a1 b3
    (by rw [r1 _ (by omega)]; exact ha0) (by rw [r1 _ (by omega)]; exact hb1)
    (by rw [r1 _ (by omega)]; exact ha1) (by rw [r1 _ (by omega)]; exact hb3) (by omega)
  generalize hm2 : m1.set (out + 1) (ops.add (ops.mul a0 b1) (ops.mul a1 b3)) = m2 at s1
  have l2 : m2.length = mem.length := by rw [← hm2]; simpa using l1
  have r2 : ∀ q, out + 1 ≠ q → loadF m2 q = loadF m1 q := fun q hq => by
    rw [← hm2]; exact loadF_set_ne m1 _ _ _ hq
  have w2 : loadF m2 (out + 1) = some (ops.add (ops.mul a0 b1) (ops.mul a1 b3)) := by
    rw [← hm2]; exact loadF_set_eq m1 _ _ (by omega)
  -- statement 2
  have s2 := mul2_assign_eq ops m2 out a b 2 2 0 3 2 a2 b0 a3 b2
    (by rw [r2 _ (by omega), r1 _ (by omega)]; exact ha2)
    (by rw [r2 _ (by omega), r1 _ (by omega)]; exact hb0)
    (by rw [r2 _ (by omega), r1 _ (by omega)]; exact ha3)
    (by rw [r2 _ (by omega), r1 _ (by omega)]; exact hb2) (by omega)
  generalize hm3 : m2.set (out + 2) (ops.add (ops.mul a2 b0) (ops.mul a3 b2)) = m3 at s2
  have l3 : m3.length = mem.length := by rw [← hm3]; simpa using l2
  have r3 : ∀ q, out + 2 ≠ q → loadF m3 q = loadF m2 q := fun q hq => by
    rw [← hm3]; exact loadF_set_ne m2 _ _ _ hq
  have w3 : loadF m3 (out + 2) = some (ops.add (ops.mul a2 b0) (ops.mul a3 b2)) := by
    rw [← hm3]; exact loadF_set_eq m2 _ _ (by omega)
  -- statement 3
  have s3 := mul2_assign_eq ops m3 out a b 3 2 1 3 3 a2 b1 a3 b3
    (by rw [r3 _ (by omega), r2 _ (by omega), r1 _ (by omega)]; exact ha2)
    (by rw [r3 _ (by omega), r2 _ (by omega), r1 _ (by omega)]; exact hb1)
    (by rw [r3 _ (by omega), r2 _ (by omega), r1 _ (by omega)]; exact ha3)
    (by rw [r3 _ (by omega), r2 _ (by omega), r1 _ (by omega)]; exact hb3) (by omega)
  generalize hm4 : m3.set (out + 3) (ops.add (ops.mul a2 b1) (ops.mul a3 b3)) = m4 at s3
  have l4 : m4.length = mem.length := by rw [← hm4]; simpa using l3
  have r4 : ∀ q, out + 3 ≠ q → loadF m4 q = loadF m3 q := fun q hq => by
    rw [← hm4]; exact loadF_set_ne m3 _ _ _ hq
  have w4 : loadF m4 (out + 3) = some (ops.add (ops.mul a2 b1) (ops.mul a3 b3)) := by
    rw [← hm4]; exact loadF_set_eq m3 _ _ (by omega)
  refine ⟨m4, ?_, l4, ?_, ?_, ?_, w4, ?_⟩
  · simp only [mul2, s0, s1, s2, s3]
  · rw [r4 _ (by omega), r3 _ (by omega), r2 _ (by omega)]; exact w1
  · rw [r4 _ (by omega), r3 _ (by omega)]; exact w2
  · rw [r4 _ (by omega)]; exact w3
  · intro p hp
    rw [r4 _ (by omega), r3 _ (by omega), r2 _ (by omega), r1 _ (by omega)]
/-- Witness for C12 amended: `a` at address 3, `b` at address 7 and `out` at
address 0 of an 11-cell memory; `out[3]` is the cell `a[0]`, written by the last
statement, after every read of `a[0]`. -/
theorem mul2_spec_witness :
    ∃ mem1, mul2 exactOps [9, 9, 9, 1, 1, 0, 1, 2, 1, 0, 1] 0 3 7 = some mem1 ∧
      mem1.length = [9, 9, 9, 1, 1, 0, 1, 2, 1, 0, (1 : Int)].length ∧
      loadF mem1 (0 + 0) = some (exactOps.add (exactOps.mul 1 2) (exactOps.mul 1 0)) ∧
      loadF mem1 (0 + 1) = some (exactOps.add (exactOps.mul 1 1) (exactOps.mul 1 1)) ∧
      loadF mem1 (0 + 2) = some (exactOps.add (exactOps.mul 0 2) (exactOps.mul 1 0)) ∧
      loadF mem1 (0 + 3) = some (exactOps.add (exactOps.mul 0 1) (exactOps.mul 1 1)) ∧
      (∀ p, (p < 0 ∨ 0 + 4 ≤ p) →
        loadF mem1 p = loadF [9, 9, 9, 1, 1, 0, 1, 2, 1, 0, 1] p) :=
  mul2_spec exactOps [9, 9, 9, 1, 1, 0, 1, 2, 1, 0, 1] 0 3 7 1 1 0 1 2 1 0 1
    (by decide) (by decide) (by decide) (by decide) (by decide) (by decide) (by decide)
    (by decide) (by decide) (by intro k j hkj hj; omega)

/-- C13: `loop_sum` is a function of `n` alone: for every `n >= 0` with
`65535 * n < 2^63` (64-bit `long`), `loop_sum(n)` is the sum over `i = 0 .. n-1`
of `(i mod 65536) XOR 0x7c15`, and for every `n <= 0` it returns 0. -/
theorem loop_sum_spec (n : Int) :
    (0 ≤ n → 65535 * n < 9223372036854775808 →
      loop_sum n = ((loopSumSpec n.toNat : Nat) : Int) ∧
      loopSumSpec n.toNat = ((List.range n.toNat).map (fun i => (i % 65536) ^^^ 0x7c15)).sum) ∧
    (n ≤ 0 → loop_sum n = 0) := by
  constructor
  · intro h0 hmax
    refine ⟨?_, rfl⟩
    have h := loop_sum_loop_spec n.toNat 0 0 (by omega) (by omega)
    unfold loop_sum loopSumSpec
    rw [List.range_eq_range']
    simpa using h
  · intro hn
    have h0 : n.toNat = 0 := by omega
    simp [loop_sum, h0, loop_sum_loop]

/-- Witness for C13: `loop_sum(5)` is `31765 + 31764 + 31767 + 31766 + 31761`, and
`loop_sum(-5)` is 0. -/
theorem loop_sum_spec_witness :
    (loop_sum 5 = ((loopSumSpec (5 : Int).toNat : Nat) : Int) ∧
      loopSumSpec (5 : Int).toNat =
        ((List.range (5 : Int).toNat).map (fun i => (i % 65536) ^^^ 0x7c15)).sum) ∧
      loop_sum (-5) = 0 ∧ loopSumSpec 5 = 31765 + 31764 + 31767 + 31766 + 31761 :=
  ⟨(loop_sum_spec 5).1 (by decide) (by decide), (loop_sum_spec (-5)).2 (by decide), by decide⟩

end RelaxNative
